import Mathlib

/-!
# Ungoogled Chromium update notifier: `background.js`

A shallow embedding of `src/background.js` and the properties of its release-feed
parsing, version extraction, comparison and notification dispatch.

JavaScript strings are modelled as `List Char`.  Every pattern the program searches for
(`<entry`, `/windows/64bit/`, the three regular expressions) is made of ASCII characters, so
matching by UTF-16 code unit and matching by character select the same text.
-/

namespace UpdateNotifier

/-! ## Strings -/

/-- The double quote character U+0022. -/
def dquote : Char := Char.ofNat 34

/-- The test `s.startsWith(pat)` read at the head of `s`. -/
def startsWith : List Char → List Char → Bool
  | _, [] => true
  | [], _ :: _ => false
  | c :: cs, p :: ps => c == p && startsWith cs ps

/-- The method `String.prototype.includes`: `pat` occurs somewhere in `s`. -/
def includes : List Char → List Char → Bool
  | [], pat => startsWith [] pat
  | c :: cs, pat => startsWith (c :: cs) pat || includes cs pat

/-- The scan of `String.prototype.split` for a non-empty separator `sep`.  The first argument
counts the characters of a separator just found that are still to be skipped, the second is the
segment collected so far, in reverse. -/
def splitScan (sep : List Char) : Nat → List Char → List Char → List (List Char)
  | _, cur, [] => [cur.reverse]
  | n + 1, cur, _ :: cs => splitScan sep n cur cs
  | 0, cur, c :: cs =>
    if startsWith (c :: cs) sep then cur.reverse :: splitScan sep (sep.length - 1) [] cs
    else splitScan sep 0 (c :: cur) cs

/-- The method `String.prototype.split` with a non-empty string separator. -/
def split (s sep : List Char) : List (List Char) :=
  splitScan sep 0 [] s

/-- The characters `String.prototype.trim` strips: ECMAScript WhiteSpace and LineTerminator. -/
def isWhiteSpace (c : Char) : Bool :=
  let n := c.toNat
  n == 0x09 || n == 0x0A || n == 0x0B || n == 0x0C || n == 0x0D || n == 0x20 || n == 0xA0 ||
  n == 0x1680 || (0x2000 ≤ n && n ≤ 0x200A) || n == 0x2028 || n == 0x2029 || n == 0x202F ||
  n == 0x205F || n == 0x3000 || n == 0xFEFF

/-- The method `String.prototype.trim`. -/
def trim (s : List Char) : List Char :=
  ((s.dropWhile isWhiteSpace).reverse.dropWhile isWhiteSpace).reverse

/-! ## Regular expressions

The three regular expressions of the program are sequences of pieces, each a character class
taken once, or under a greedy `*` or `+`, possibly wrapped in a capturing group.  The matcher is
the backtracking matcher of ECMAScript restricted to such sequences. -/

/-- A character class. -/
inductive CharClass
  | lit (c : Char)
  | non (c : Char)
  | digit
deriving DecidableEq, Repr

/-- Whether a character belongs to a class: `c`, `[^c]`, `\d`. -/
def CharClass.test : CharClass → Char → Bool
  | .lit c, x => x == c
  | .non c, x => x != c
  | .digit, x => x.isDigit

/-- How often a piece is taken. -/
inductive Quant
  | once
  | star
  | plus
deriving DecidableEq, Repr

/-- One piece of a pattern. -/
structure Piece where
  cls : CharClass
  quant : Quant
  captured : Bool
deriving DecidableEq, Repr

/-- The result array of a successful match: `whole` is index 0, `groups` are indices 1, 2, ... -/
structure MatchResult where
  whole : List Char
  groups : List (List Char)
deriving DecidableEq, Repr

/-- Records the text `chunk` consumed by piece `p` in front of the result for the later pieces. -/
def MatchResult.push (p : Piece) (chunk : List Char) (m : MatchResult) : MatchResult :=
  { whole := chunk ++ m.whole, groups := if p.captured then chunk :: m.groups else m.groups }

/-- Greedy repetition of a class before the continuation `k`: take as many characters as
possible, giving one back at a time while `k` fails on what follows. -/
def greedy {α : Type} (cls : CharClass) (k : List Char → Option α) :
    List Char → Option (List Char × α)
  | [] => (k []).map fun r => ([], r)
  | c :: cs =>
    if cls.test c then
      match greedy cls k cs with
      | some (run, r) => some (c :: run, r)
      | none => (k (c :: cs)).map fun r => ([], r)
    else (k (c :: cs)).map fun r => ([], r)

/-- Matches a pattern at the head of the input. -/
def matchHere : List Piece → List Char → Option MatchResult
  | [], _ => some ⟨[], []⟩
  | p :: ps, s =>
    match p.quant with
    | .once =>
      match s with
      | [] => none
      | c :: cs => if p.cls.test c then (matchHere ps cs).map (MatchResult.push p [c]) else none
    | .star => (greedy p.cls (matchHere ps) s).map fun rm => rm.2.push p rm.1
    | .plus =>
      match s with
      | [] => none
      | c :: cs =>
        if p.cls.test c then
          (greedy p.cls (matchHere ps) cs).map fun rm => rm.2.push p (c :: rm.1)
        else none

/-- The method `String.prototype.match` with a regular expression without flags: the match at
the leftmost position where the pattern matches, or `none` for `null`. -/
def regexMatch (pat : List Piece) : List Char → Option MatchResult
  | [] => matchHere pat []
  | c :: cs =>
    match matchHere pat (c :: cs) with
    | some m => some m
    | none => regexMatch pat cs

/-- The pieces of a literal text. -/
def literal (s : List Char) : List Piece :=
  s.map fun c => ⟨.lit c, .once, false⟩

/-- The pattern `/<title[^>]*>([^<]*)<\/title>/`. -/
def titlePattern : List Piece :=
  literal "<title".toList ++ ⟨.non '>', .star, false⟩ :: literal ">".toList ++
    ⟨.non '<', .star, true⟩ :: literal "</title>".toList

/-- The pattern `/href="([^"]*)"/`. -/
def hrefPattern : List Piece :=
  literal ("href=".toList ++ [dquote]) ++ ⟨.non dquote, .star, true⟩ :: literal [dquote]

/-- The pattern `/\d+\.\d+\.\d+\.\d+/`. -/
def versionPattern : List Piece :=
  [⟨.digit, .plus, false⟩, ⟨.lit '.', .once, false⟩, ⟨.digit, .plus, false⟩,
   ⟨.lit '.', .once, false⟩, ⟨.digit, .plus, false⟩, ⟨.lit '.', .once, false⟩,
   ⟨.digit, .plus, false⟩]

/-! ## The release feed -/

/-- A thrown JavaScript error, or the reason of a rejected promise. -/
inductive JsError
  | typeError
  | rejected
deriving DecidableEq, Repr

/-- The object returned by `getLatestWin64Release`. -/
structure Release where
  cleanVersion : List Char
  downloadLink : List Char
deriving DecidableEq, Repr

/-- The separator `'<entry'`. -/
def entryTag : List Char := "<entry".toList

/-- The platform marker `'/windows/64bit/'`. -/
def platformMarker : List Char := "/windows/64bit/".toList

/-- The segments searched: `releaseFeed.split('<entry').slice(1)`. -/
def entries (releaseFeed : List Char) : List (List Char) :=
  (split releaseFeed entryTag).drop 1

/-- Line 25: `entries.find(entry => entry.includes('/windows/64bit/'))`, `none` for
`undefined`. -/
def entry (releaseFeed : List Char) : Option (List Char) :=
  (entries releaseFeed).find? fun entry => includes entry platformMarker

/-- The text captured on line 26, before `.trim()`; `none` when the pattern does not match. -/
def titleText (entry : List Char) : Option (List Char) :=
  (regexMatch titlePattern entry).map fun m => m.groups.headD []

/-- Line 26: `entry.match(/<title[^>]*>([^<]*)<\/title>/)[1].trim()`. -/
def title (entry : List Char) : Option (List Char) :=
  (titleText entry).map trim

/-- Line 27: `entry.match(/href="([^"]*)"/)[1]`. -/
def downloadLink (entry : List Char) : Option (List Char) :=
  (regexMatch hrefPattern entry).map fun m => m.groups.headD []

/-- Lines 28 and 29: `versionMatch ? versionMatch[0] : title`. -/
def cleanVersion (title : List Char) : List Char :=
  match regexMatch versionPattern title with
  | some versionMatch => versionMatch.whole
  | none => title

/-- The function `getLatestWin64Release`.  Reading a property of `undefined` (no entry found) or
of `null` (a pattern that does not match) throws a `TypeError`. -/
def getLatestWin64Release (releaseFeed : List Char) : Except JsError Release :=
  match entry releaseFeed with
  | none => .error .typeError
  | some e =>
    match title e with
    | none => .error .typeError
    | some t =>
      match downloadLink e with
      | none => .error .typeError
      | some l => .ok { cleanVersion := cleanVersion t, downloadLink := l }

/-! ## The host browser

The browser interfaces the program calls are a parameter; what the program asks of them is
recorded, in order, as a list of events. -/

/-- A request made to the browser. -/
inductive Event
  | tabsCreate (url : List Char)
  | executeScript (tabId : Nat) (message : List Char)
  | consoleWarn (err : JsError)
deriving DecidableEq, Repr

/-- The answers of the browser: the body of the feed, the reported version, the id of the tab
opened for a url, and the outcome of the promise of `chrome.scripting.executeScript`. -/
structure Host where
  feedText : Except JsError (List Char)
  uaFullVersion : Except JsError (List Char)
  newTabId : List Char → Nat
  scripting : Nat → List Char → Except JsError Unit

/-- A computation that returns or throws, and extends the list of events. -/
abbrev Eff (α : Type) : Type := List Event → Except JsError α × List Event

/-- Returns a value. -/
def Eff.ret {α : Type} (a : α) : Eff α := fun log => (.ok a, log)

/-- Sequencing: an error of the first computation skips the second. -/
def Eff.andThen {α β : Type} (m : Eff α) (f : α → Eff β) : Eff β := fun log =>
  match m log with
  | (.ok a, log1) => f a log1
  | (.error e, log1) => (.error e, log1)

/-- Records a request. -/
def Eff.emit (e : Event) : Eff Unit := fun log => (.ok (), log ++ [e])

/-- The outcome of a call: a value or an error. -/
def Eff.lift {α : Type} (r : Except JsError α) : Eff α := fun log => (r, log)

/-- The handler `.catch(handler)` attached to a computation. -/
def Eff.catch {α : Type} (m : Eff α) (handler : JsError → Eff α) : Eff α := fun log =>
  match m log with
  | (.ok a, log1) => (.ok a, log1)
  | (.error e, log1) => handler e log1

/-- The function `fetchLatestReleaseFeed`. -/
def fetchLatestReleaseFeed (host : Host) : Eff (List Char) :=
  Eff.lift host.feedText

/-- The function `getChromeVersion`. -/
def getChromeVersion (host : Host) : Eff (List Char) :=
  Eff.lift host.uaFullVersion

/-- The function `createTab`: asks for a tab at `url`; the browser later calls `callback` with
the id of the tab.  What the callback returns or throws does not reach the caller. -/
def createTab (host : Host) (url : List Char) (callback : Nat → Eff Unit) : Eff Unit := fun log =>
  (.ok (), (callback (host.newTabId url) (log ++ [.tabsCreate url])).2)

/-- The function `notifyBrowserStatus`: the scripting request with its `.catch` handler, which
logs a warning. -/
def notifyBrowserStatus (host : Host) (message : List Char) (tabId : Nat) : Eff Unit :=
  Eff.catch
    (Eff.andThen (Eff.emit (.executeScript tabId message)) fun _ =>
      Eff.lift (host.scripting tabId message))
    fun err => Eff.emit (.consoleWarn err)

/-- The line feed character U+000A. -/
def newline : Char := Char.ofNat 10

/-- The template literal of `notifyOutdatedBrowser`. -/
def outdatedMessage (currentVersion cleanVersion : List Char) : List Char :=
  "Current Ungoogled Chromium Version: ".toList ++ currentVersion ++ [newline] ++
    "Latest Windows 64-bit x86 release: ".toList ++ cleanVersion ++ [newline, newline] ++
    "Browser outdated. Please download the latest version.".toList

/-- The function `notifyOutdatedBrowser`. -/
def notifyOutdatedBrowser (host : Host) (currentVersion cleanVersion downloadLink : List Char) :
    Eff Unit :=
  let message := outdatedMessage currentVersion cleanVersion
  createTab host downloadLink fun tabId => notifyBrowserStatus host message tabId

/-- The call `Promise.all` of two computations: both values, or the error of one that fails. -/
def promiseAll {α β : Type} (a : Eff α) (b : Eff β) : Eff (α × β) :=
  Eff.andThen a fun x => Eff.andThen b fun y => Eff.ret (x, y)

/-- The function `checkForUpdates`. -/
def checkForUpdates (host : Host) : Eff Bool :=
  Eff.andThen (promiseAll (fetchLatestReleaseFeed host) (getChromeVersion host)) fun fv =>
    let releaseFeed := fv.1
    let currentVersion := fv.2
    Eff.andThen (Eff.lift (getLatestWin64Release releaseFeed)) fun r =>
      if currentVersion ≠ r.cleanVersion then
        Eff.andThen (notifyOutdatedBrowser host currentVersion r.cleanVersion r.downloadLink)
          fun _ => Eff.ret false
      else Eff.ret true

/-! ## Vocabulary of the properties

What the statements below say about texts, matches and entries, and the sample feeds and
browsers they are evaluated on. -/

/-- The texts a piece can consume: characters of its class, as many as its quantifier allows. -/
def Piece.accepts (p : Piece) (chunk : List Char) : Prop :=
  (∀ c ∈ chunk, p.cls.test c = true) ∧
    match p.quant with
    | .once => chunk.length = 1
    | .star => True
    | .plus => chunk ≠ []

/-- The results a pattern can produce: the concatenation of one accepted text per piece, with
the texts of the captured pieces as groups. -/
def Matches : List Piece → MatchResult → Prop
  | [], m => m = ⟨[], []⟩
  | p :: ps, m => ∃ chunk m', p.accepts chunk ∧ Matches ps m' ∧ m = m'.push p chunk

/-- The opening text `href="` of the link pattern. -/
def hrefOpen : List Char := "href=".toList ++ [dquote]

/-- The entry holds a title field with text `raw`: `<title`, attributes without `>`, `>`, a
text without `<`, and `</title>`. -/
def TitleField (entry raw : List Char) : Prop :=
  ∃ pre attrs post,
    entry = pre ++ ("<title".toList ++ attrs ++ ">".toList ++ raw ++ "</title>".toList) ++ post ∧
      '>' ∉ attrs ∧ '<' ∉ raw

/-- The entry holds a link attribute with value `link`: `href="`, a value without a double
quote, and a double quote. -/
def LinkAttr (entry link : List Char) : Prop :=
  ∃ pre post, entry = pre ++ (hrefOpen ++ link ++ [dquote]) ++ post ∧ dquote ∉ link

/-- A non-empty group of decimal digits `0` to `9`, the characters `\d` matches. -/
def IsDigits (w : List Char) : Prop :=
  w ≠ [] ∧ ∀ c ∈ w, c.isDigit = true

/-- Four non-empty groups of decimal digits separated by three periods. -/
def IsDottedQuad (w : List Char) : Prop :=
  ∃ a b c d, IsDigits a ∧ IsDigits b ∧ IsDigits c ∧ IsDigits d ∧
    w = a ++ '.' :: (b ++ '.' :: (c ++ '.' :: d))

/-- The text has a dotted-quad substring. -/
def ContainsDottedQuad (t : List Char) : Prop :=
  ∃ pre w post, t = pre ++ w ++ post ∧ IsDottedQuad w

/-- The text `v` is the first dotted quad of `t`, left to right: it occurs in `t`, no dotted quad
of `t` starts further left, and the dotted quads of `t` that start where `v` does are prefixes
of `v`. -/
def FirstDottedQuad (t v : List Char) : Prop :=
  ∃ pre post, t = pre ++ v ++ post ∧ IsDottedQuad v ∧
    ∀ pre' w' post', t = pre' ++ w' ++ post' → IsDottedQuad w' →
      pre.length ≤ pre'.length ∧ (pre'.length = pre.length → w' <+: v)

/-- The text `t` is `s` with its leading and trailing white space removed and nothing else
changed. -/
def IsTrimOf (s t : List Char) : Prop :=
  ∃ lead trail, s = lead ++ t ++ trail ∧
    (∀ c ∈ lead, isWhiteSpace c = true) ∧ (∀ c ∈ trail, isWhiteSpace c = true) ∧
    (∀ x, t.head? = some x → isWhiteSpace x = false) ∧
    (∀ x, t.getLast? = some x → isWhiteSpace x = false)

/-- The segment of a Windows entry with the given title text and link. -/
def sampleEntry (titleText link : List Char) : List Char :=
  "><id>/windows/64bit/</id><title>".toList ++ titleText ++ "</title><link href=".toList ++
    [dquote] ++ link ++ [dquote] ++ "/></entry></feed>".toList

/-- The segment of an entry for another platform. -/
def otherEntry : List Char :=
  "><title>macOS 1.2.3.4</title><link href=".toList ++ [dquote] ++
    "https://example.com/macos/".toList ++ [dquote] ++ "/></entry>".toList

/-- A feed with an entry for another platform followed by a Windows entry. -/
def sampleFeed (titleText link : List Char) : List Char :=
  "<feed><title>Releases</title>".toList ++ entryTag ++ otherEntry ++ entryTag ++
    sampleEntry titleText link

/-- A feed without a Windows entry. -/
def otherFeed : List Char :=
  "<feed><title>Releases</title>".toList ++ entryTag ++ otherEntry ++ "</feed>".toList

/-- A feed whose Windows entry has a link and no title. -/
def untitledFeed : List Char :=
  "<feed>".toList ++ entryTag ++ "><link href=".toList ++ [dquote] ++
    "https://example.com/windows/64bit/".toList ++ [dquote] ++ "/></entry></feed>".toList

/-- A browser that answers with the given feed and version, opens tab 7 and runs scripts. -/
def sampleHost (releaseFeed currentVersion : List Char) : Host :=
  { feedText := .ok releaseFeed
    uaFullVersion := .ok currentVersion
    newTabId := fun _ => 7
    scripting := fun _ _ => .ok () }

/-- A browser like `sampleHost` whose scripting requests are rejected. -/
def restrictedHost (releaseFeed currentVersion : List Char) : Host :=
  { feedText := .ok releaseFeed
    uaFullVersion := .ok currentVersion
    newTabId := fun _ => 7
    scripting := fun _ _ => .error .rejected }

/-- The events of `notifyBrowserStatus` after the scripting request: a warning when the request
is rejected. -/
def warning (outcome : Except JsError Unit) : List Event :=
  match outcome with
  | .ok _ => []
  | .error err => [.consoleWarn err]

/-! ## Prefixes and occurrences -/

theorem startsWith_iff (s p : List Char) : startsWith s p = true ↔ p <+: s := by
  induction p generalizing s with
  | nil => simp [startsWith]
  | cons x xs ih =>
    cases s with
    | nil => simp [startsWith]
    | cons c cs =>
      simp only [startsWith, Bool.and_eq_true, beq_iff_eq, ih, List.cons_prefix_cons]
      constructor
      · rintro ⟨h1, h2⟩; exact ⟨h1.symm, h2⟩
      · rintro ⟨h1, h2⟩; exact ⟨h1.symm, h2⟩

theorem includes_iff (s p : List Char) : includes s p = true ↔ p <:+: s := by
  induction s with
  | nil =>
    simp only [includes, startsWith_iff]
    constructor
    · intro h; exact h.isInfix
    · intro h; rw [List.infix_nil] at h; subst h; exact List.prefix_refl _
  | cons c cs ih =>
    simp only [includes, Bool.or_eq_true, startsWith_iff, ih, List.infix_cons_iff]

/-! ## Splitting -/

theorem splitScan_ne_nil (sep : List Char) (n : Nat) (cur s : List Char) :
    splitScan sep n cur s ≠ [] := by
  induction s generalizing n cur with
  | nil => simp [splitScan]
  | cons c cs ih =>
    cases n with
    | zero =>
      simp only [splitScan]
      split
      · simp
      · exact ih _ _
    | succ n => simpa [splitScan] using ih n cur

theorem intercalate_cons_of_ne_nil (sep a : List Char) {l : List (List Char)} (h : l ≠ []) :
    List.intercalate sep (a :: l) = a ++ sep ++ List.intercalate sep l := by
  cases l with
  | nil => exact absurd rfl h
  | cons b bs => simp [List.intercalate, List.intersperse]

/-- Joining the segments of the scan with the separator gives back the text scanned. -/
theorem intercalate_splitScan (sep : List Char) (hsep : sep ≠ []) (n : Nat) (cur s : List Char)
    (hn : n ≤ s.length) :
    List.intercalate sep (splitScan sep n cur s) = cur.reverse ++ s.drop n := by
  induction s generalizing n cur with
  | nil => simp [splitScan, List.intercalate]
  | cons c cs ih =>
    cases n with
    | succ n =>
      simp only [splitScan, List.drop_succ_cons]
      exact ih n cur (by simpa using hn)
    | zero =>
      simp only [splitScan, List.drop_zero]
      split
      · rename_i hpre
        obtain ⟨t, ht⟩ := (startsWith_iff _ _).1 hpre
        have hlen : sep.length - 1 ≤ cs.length := by
          have := congrArg List.length ht
          simp only [List.length_append, List.length_cons] at this
          omega
        rw [intercalate_cons_of_ne_nil _ _ (splitScan_ne_nil _ _ _ _), ih _ _ hlen]
        obtain ⟨x, xs, rfl⟩ := List.exists_cons_of_ne_nil hsep
        simp only [List.cons_append, List.cons.injEq] at ht
        obtain ⟨rfl, rfl⟩ := ht
        simp
      · rw [ih 0 (c :: cur) (Nat.zero_le _)]
        simp

/-- The segments of `split`, joined with the separator, are the text that was split. -/
theorem intercalate_split (s sep : List Char) (hsep : sep ≠ []) :
    List.intercalate sep (split s sep) = s := by
  simpa [split] using intercalate_splitScan sep hsep 0 [] s (Nat.zero_le _)

/-- No segment of the scan contains the separator, provided no separator starts inside the
segment being collected. -/
theorem splitScan_no_separator (sep : List Char) (hsep : sep ≠ []) (n : Nat) (cur s : List Char)
    (hinv : n = 0 → ∀ a b, cur.reverse = a ++ b → b ≠ [] → ¬ sep <+: b ++ s)
    (hskip : n ≠ 0 → cur = []) :
    ∀ seg ∈ splitScan sep n cur s, ¬ sep <:+: seg := by
  have hclosed : ∀ (cur s : List Char),
      (∀ a b, cur.reverse = a ++ b → b ≠ [] → ¬ sep <+: b ++ s) → ¬ sep <:+: cur.reverse := by
    intro cur s hinv ⟨a, c, hac⟩
    apply hinv a (sep ++ c) (by rw [← hac]; simp)
    · obtain ⟨x, xs, rfl⟩ := List.exists_cons_of_ne_nil hsep
      simp
    · exact ⟨c ++ s, by simp⟩
  induction s generalizing n cur with
  | nil =>
    intro seg hseg
    simp only [splitScan, List.mem_singleton] at hseg
    subst hseg
    cases n with
    | zero => exact hclosed cur [] (hinv rfl)
    | succ n =>
      rw [hskip (by simp)]
      rintro ⟨a, c, hac⟩
      simp only [List.reverse_nil, List.append_eq_nil] at hac
      exact hsep hac.1.2
  | cons c cs ih =>
    cases n with
    | succ n =>
      simp only [splitScan]
      have hcur : cur = [] := hskip (by simp)
      subst hcur
      apply ih n []
      · intro _ a b hab hb
        simp only [List.reverse_nil] at hab
        have := List.append_eq_nil.1 hab.symm
        exact absurd this.2 hb
      · intro _; rfl
    | zero =>
      have hinv0 := hinv rfl
      simp only [splitScan]
      split
      · intro seg hseg
        rcases List.mem_cons.1 hseg with rfl | hseg
        · exact hclosed cur (c :: cs) hinv0
        · refine ih (sep.length - 1) [] ?_ (fun _ => rfl) seg hseg
          intro _ a b hab hb
          simp only [List.reverse_nil] at hab
          have := List.append_eq_nil.1 hab.symm
          exact absurd this.2 hb
      · rename_i hstart
        apply ih 0 (c :: cur) _ (fun h => absurd rfl h)
        intro _ a b hab hb
        rcases List.eq_nil_or_concat b with rfl | ⟨b0, z, rfl⟩
        · exact absurd rfl hb
        · rw [List.concat_eq_append, List.reverse_cons, ← List.append_assoc] at hab
          obtain ⟨hab0, hz⟩ := List.append_inj' hab rfl
          simp only [List.cons.injEq, and_true] at hz
          subst hz
          rw [List.concat_eq_append, List.append_assoc]
          cases b0 with
          | nil =>
            simp only [List.nil_append, List.singleton_append]
            intro hpre
            exact hstart ((startsWith_iff _ _).2 hpre)
          | cons y ys => exact hinv0 a (y :: ys) hab0 (by simp)

/-- No segment of `split` contains the separator. -/
theorem split_no_separator (s sep : List Char) (hsep : sep ≠ []) :
    ∀ seg ∈ split s sep, ¬ sep <:+: seg := by
  apply splitScan_no_separator sep hsep 0 [] s
  · intro _ a b hab hb
    simp only [List.reverse_nil] at hab
    have := List.append_eq_nil.1 hab.symm
    exact absurd this.2 hb
  · intro h; exact absurd rfl h

/-! ## What the matcher computes -/

theorem greedy_sound {α : Type} (cls : CharClass) (k : List Char → Option α) (s run : List Char)
    (r : α) (h : greedy cls k s = some (run, r)) :
    (∀ c ∈ run, cls.test c = true) ∧ ∃ rest, s = run ++ rest ∧ k rest = some r := by
  induction s generalizing run with
  | nil =>
    simp only [greedy, Option.map_eq_some', Prod.mk.injEq] at h
    obtain ⟨a, ha, rfl, rfl⟩ := h
    exact ⟨by simp, [], rfl, ha⟩
  | cons c cs ih =>
    simp only [greedy] at h
    split at h
    · rename_i hc
      split at h
      · rename_i run' r' hg
        simp only [Option.some.injEq, Prod.mk.injEq] at h
        obtain ⟨rfl, rfl⟩ := h
        obtain ⟨hall, rest, hs, hk⟩ := ih _ hg
        refine ⟨?_, rest, by rw [hs]; rfl, hk⟩
        intro x hx
        rcases List.mem_cons.1 hx with rfl | hx
        · exact hc
        · exact hall x hx
      · simp only [Option.map_eq_some', Prod.mk.injEq] at h
        obtain ⟨a, ha, rfl, rfl⟩ := h
        exact ⟨by simp, c :: cs, rfl, ha⟩
    · simp only [Option.map_eq_some', Prod.mk.injEq] at h
      obtain ⟨a, ha, rfl, rfl⟩ := h
      exact ⟨by simp, c :: cs, rfl, ha⟩

theorem greedy_complete {α : Type} (cls : CharClass) (k : List Char → Option α)
    (run rest : List Char) (hall : ∀ c ∈ run, cls.test c = true) (hk : (k rest).isSome = true) :
    (greedy cls k (run ++ rest)).isSome = true := by
  induction run with
  | nil =>
    cases rest with
    | nil =>
      simp only [List.append_nil, greedy, Option.isSome_map']
      exact hk
    | cons c cs =>
      simp only [List.nil_append, greedy]
      split
      · split
        · rfl
        · simpa using hk
      · simpa using hk
  | cons c cs ih =>
    have hc : cls.test c = true := hall c (List.mem_cons_self _ _)
    have ih' := ih fun x hx => hall x (List.mem_cons_of_mem _ hx)
    simp only [List.cons_append, greedy, hc, if_true]
    split
    · rfl
    · rename_i hnone
      have hnone' : greedy cls k (cs ++ rest) = none := hnone
      rw [hnone'] at ih'
      exact absurd ih' (by simp)

/-- Greedy repetition takes the longest run after which the continuation succeeds. -/
theorem greedy_longest {α : Type} (cls : CharClass) (k : List Char → Option α)
    (s run : List Char) (r : α) (h : greedy cls k s = some (run, r))
    (run' rest' : List Char) (hs : s = run' ++ rest') (hall : ∀ c ∈ run', cls.test c = true)
    (hk : (k rest').isSome = true) : run'.length ≤ run.length := by
  induction s generalizing run run' with
  | nil =>
    have : run' = [] := by
      cases run' with
      | nil => rfl
      | cons _ _ => simp at hs
    simp [this]
  | cons c cs ih =>
    cases run' with
    | nil => simp
    | cons x xs =>
      simp only [List.cons_append, List.cons.injEq] at hs
      obtain ⟨rfl, rfl⟩ := hs
      have hc : cls.test c = true := hall c (List.mem_cons_self _ _)
      have hxs : ∀ y ∈ xs, cls.test y = true := fun y hy => hall y (List.mem_cons_of_mem _ hy)
      simp only [greedy, hc, if_true] at h
      split at h
      · rename_i run0 r0 hg
        simp only [Option.some.injEq, Prod.mk.injEq] at h
        obtain ⟨rfl, rfl⟩ := h
        have := ih _ hg xs rfl hxs
        simpa using this
      · rename_i hnone
        have := greedy_complete cls k xs rest' hxs hk
        have hnone' : greedy cls k (xs ++ rest') = none := hnone
        rw [hnone'] at this
        exact absurd this (by simp)

/-- A successful match of `p :: ps` consumes a text accepted by `p`, the longest after which
`ps` still matches, and then matches `ps`. -/
theorem matchHere_cons_some (p : Piece) (ps : List Piece) (s : List Char) (m : MatchResult)
    (h : matchHere (p :: ps) s = some m) :
    ∃ chunk s' m', s = chunk ++ s' ∧ p.accepts chunk ∧ matchHere ps s' = some m' ∧
      m = m'.push p chunk ∧
      ∀ chunk' s'', s = chunk' ++ s'' → p.accepts chunk' → (matchHere ps s'').isSome = true →
        chunk'.length ≤ chunk.length := by
  obtain ⟨cls, q, cap⟩ := p
  cases q with
  | once =>
    cases s with
    | nil => simp [matchHere] at h
    | cons c cs =>
      simp only [matchHere] at h
      split at h
      · rename_i hc
        simp only [Option.map_eq_some'] at h
        obtain ⟨m', hm', rfl⟩ := h
        refine ⟨[c], cs, m', rfl, ⟨by simpa using hc, rfl⟩, hm', rfl, ?_⟩
        intro chunk' s'' _ hacc _
        exact le_of_eq hacc.2
      · simp at h
  | star =>
    simp only [matchHere, Option.map_eq_some'] at h
    obtain ⟨⟨run, m'⟩, hg, rfl⟩ := h
    obtain ⟨hall, rest, hs, hk⟩ := greedy_sound _ _ _ _ _ hg
    refine ⟨run, rest, m', hs, ⟨hall, trivial⟩, hk, rfl, ?_⟩
    intro chunk' s'' hs' hacc hsome
    exact greedy_longest _ _ _ _ _ hg chunk' s'' hs' hacc.1 hsome
  | plus =>
    cases s with
    | nil => simp [matchHere] at h
    | cons c cs =>
      simp only [matchHere] at h
      split at h
      · rename_i hc
        simp only [Option.map_eq_some'] at h
        obtain ⟨⟨run, m'⟩, hg, rfl⟩ := h
        obtain ⟨hall, rest, hs, hk⟩ := greedy_sound _ _ _ _ _ hg
        refine ⟨c :: run, rest, m', by rw [hs]; rfl, ⟨?_, by simp⟩, hk, rfl, ?_⟩
        · intro x hx
          rcases List.mem_cons.1 hx with rfl | hx
          · exact hc
          · exact hall x hx
        · intro chunk' s'' hs' hacc hsome
          cases chunk' with
          | nil => simp
          | cons x xs =>
            simp only [List.cons_append, List.cons.injEq] at hs'
            obtain ⟨rfl, hcs⟩ := hs'
            have := greedy_longest _ _ _ _ _ hg xs s'' hcs
              (fun y hy => hacc.1 y (List.mem_cons_of_mem _ hy)) hsome
            simpa using this
      · simp at h

/-- If `p` accepts a text after which `ps` matches, then `p :: ps` matches. -/
theorem matchHere_cons_isSome (p : Piece) (ps : List Piece) (chunk s' : List Char)
    (hacc : p.accepts chunk) (hps : (matchHere ps s').isSome = true) :
    (matchHere (p :: ps) (chunk ++ s')).isSome = true := by
  obtain ⟨cls, q, cap⟩ := p
  obtain ⟨hall, hq⟩ := hacc
  cases q with
  | once =>
    obtain ⟨c, rfl⟩ := List.length_eq_one.1 hq
    have hc : cls.test c = true := hall c (List.mem_singleton_self c)
    simpa [matchHere, hc] using hps
  | star =>
    have := greedy_complete cls (matchHere ps) chunk s' hall hps
    simpa [matchHere] using this
  | plus =>
    obtain ⟨c, run, rfl⟩ := List.exists_cons_of_ne_nil hq
    have hc : cls.test c = true := hall c (List.mem_cons_self _ _)
    have := greedy_complete cls (matchHere ps) run s'
      (fun y hy => hall y (List.mem_cons_of_mem _ hy)) hps
    simpa [matchHere, hc] using this

/-- Soundness of the matcher: a result is produced by the pattern and is a prefix of the input. -/
theorem matchHere_sound (pat : List Piece) (s : List Char) (m : MatchResult)
    (h : matchHere pat s = some m) : Matches pat m ∧ ∃ rest, s = m.whole ++ rest := by
  induction pat generalizing s m with
  | nil =>
    simp only [matchHere, Option.some.injEq] at h
    subst h
    exact ⟨rfl, s, rfl⟩
  | cons p ps ih =>
    obtain ⟨chunk, s', m', rfl, hacc, hm', rfl, _⟩ := matchHere_cons_some p ps s m h
    obtain ⟨hM, rest, rfl⟩ := ih s' m' hm'
    exact ⟨⟨chunk, m', hacc, hM, rfl⟩, rest, by simp [MatchResult.push]⟩

/-- Completeness of the matcher: it succeeds wherever the input starts with a text the pattern
can produce. -/
theorem matchHere_complete (pat : List Piece) (m : MatchResult) (hM : Matches pat m)
    (rest : List Char) : (matchHere pat (m.whole ++ rest)).isSome = true := by
  induction pat generalizing m with
  | nil => simp [matchHere]
  | cons p ps ih =>
    obtain ⟨chunk, m', hacc, hM', rfl⟩ := hM
    have := matchHere_cons_isSome p ps chunk (m'.whole ++ rest) hacc (ih m' hM')
    simpa [MatchResult.push] using this

/-- A match found by `regexMatch` starts at the leftmost position where the pattern matches. -/
theorem regexMatch_some (pat : List Piece) (s : List Char) (m : MatchResult)
    (h : regexMatch pat s = some m) :
    ∃ pre suf, s = pre ++ suf ∧ matchHere pat suf = some m ∧
      ∀ pre' suf', s = pre' ++ suf' → pre'.length < pre.length → matchHere pat suf' = none := by
  induction s with
  | nil =>
    refine ⟨[], [], rfl, by simpa [regexMatch] using h, ?_⟩
    intro pre' suf' _ hlt
    simp at hlt
  | cons c cs ih =>
    simp only [regexMatch] at h
    split at h
    · rename_i m0 hm0
      simp only [Option.some.injEq] at h
      subst h
      refine ⟨[], c :: cs, rfl, hm0, ?_⟩
      intro pre' suf' _ hlt
      simp at hlt
    · rename_i hnone
      obtain ⟨pre, suf, hs, hm, hleft⟩ := ih h
      refine ⟨c :: pre, suf, by rw [hs]; rfl, hm, ?_⟩
      intro pre' suf' hs' hlt
      cases pre' with
      | nil =>
        simp only [List.nil_append] at hs'
        rw [← hs']
        exact hnone
      | cons x xs =>
        simp only [List.cons_append, List.cons.injEq] at hs'
        exact hleft xs suf' hs'.2 (by simpa using hlt)

/-- When `regexMatch` finds nothing, the pattern matches at no position. -/
theorem regexMatch_none (pat : List Piece) (s : List Char) (h : regexMatch pat s = none)
    (pre suf : List Char) (hs : s = pre ++ suf) : matchHere pat suf = none := by
  induction s generalizing pre with
  | nil =>
    have : suf = [] := by
      cases pre with
      | nil => simpa using hs.symm
      | cons _ _ => simp at hs
    subst this
    simpa [regexMatch] using h
  | cons c cs ih =>
    simp only [regexMatch] at h
    split at h
    · simp at h
    · rename_i hnone
      cases pre with
      | nil =>
        simp only [List.nil_append] at hs
        rw [← hs]
        exact hnone
      | cons x xs =>
        simp only [List.cons_append, List.cons.injEq] at hs
        exact ih h xs hs.2

/-! ## The three patterns -/

theorem matches_literal (w : List Char) (ps : List Piece) (m : MatchResult) :
    Matches (literal w ++ ps) m ↔
      ∃ m', Matches ps m' ∧ m = ⟨w ++ m'.whole, m'.groups⟩ := by
  induction w generalizing m with
  | nil =>
    simp only [literal, List.map_nil, List.nil_append]
    constructor
    · intro h; exact ⟨m, h, rfl⟩
    · rintro ⟨m', h, rfl⟩; exact h
  | cons c cs ih =>
    simp only [literal, List.map_cons, List.cons_append, Matches] at ih ⊢
    constructor
    · rintro ⟨chunk, m1, ⟨hall, hlen⟩, hM, rfl⟩
      obtain ⟨x, rfl⟩ := List.length_eq_one.1 hlen
      have hx : x = c := by simpa [CharClass.test] using hall x (List.mem_singleton_self x)
      subst hx
      obtain ⟨m2, hM2, rfl⟩ := (ih m1).1 hM
      exact ⟨m2, hM2, by simp [MatchResult.push]⟩
    · rintro ⟨m2, hM2, rfl⟩
      refine ⟨[c], ⟨cs ++ m2.whole, m2.groups⟩, ⟨?_, rfl⟩, (ih _).2 ⟨m2, hM2, rfl⟩, ?_⟩
      · simp [CharClass.test]
      · simp [MatchResult.push]

theorem matches_nil (m : MatchResult) : Matches [] m ↔ m = ⟨[], []⟩ := Iff.rfl

theorem matches_star (cls : CharClass) (cap : Bool) (ps : List Piece) (m : MatchResult) :
    Matches (⟨cls, .star, cap⟩ :: ps) m ↔
      ∃ chunk m', (∀ c ∈ chunk, cls.test c = true) ∧ Matches ps m' ∧
        m = ⟨chunk ++ m'.whole, if cap then chunk :: m'.groups else m'.groups⟩ := by
  simp only [Matches, Piece.accepts, and_true, MatchResult.push]

theorem matches_plus (cls : CharClass) (cap : Bool) (ps : List Piece) (m : MatchResult) :
    Matches (⟨cls, .plus, cap⟩ :: ps) m ↔
      ∃ chunk m', ((∀ c ∈ chunk, cls.test c = true) ∧ chunk ≠ []) ∧ Matches ps m' ∧
        m = ⟨chunk ++ m'.whole, if cap then chunk :: m'.groups else m'.groups⟩ := by
  simp only [Matches, Piece.accepts, MatchResult.push]

/-- What the title pattern produces. -/
theorem matches_titlePattern (m : MatchResult) :
    Matches titlePattern m ↔
      ∃ attrs raw, '>' ∉ attrs ∧ '<' ∉ raw ∧
        m = ⟨"<title".toList ++ attrs ++ ">".toList ++ raw ++ "</title>".toList, [raw]⟩ := by
  have hpat : titlePattern = literal "<title".toList ++ (⟨.non '>', .star, false⟩ ::
      (literal ">".toList ++ (⟨.non '<', .star, true⟩ :: (literal "</title>".toList ++ [])))) := by
    simp [titlePattern]
  rw [hpat, matches_literal]
  simp only [matches_star, matches_literal, matches_nil]
  constructor
  · rintro ⟨m1, ⟨attrs, m2, hattrs, ⟨m3, ⟨raw, m4, hraw, ⟨m5, rfl, rfl⟩, rfl⟩, rfl⟩, rfl⟩, rfl⟩
    refine ⟨attrs, raw, ?_, ?_, by simp⟩
    · intro hmem; simpa [CharClass.test] using hattrs _ hmem
    · intro hmem; simpa [CharClass.test] using hraw _ hmem
  · rintro ⟨attrs, raw, hattrs, hraw, rfl⟩
    refine ⟨_, ⟨attrs, _, ?_, ⟨_, ⟨raw, _, ?_, ⟨_, rfl, rfl⟩, rfl⟩, rfl⟩, rfl⟩, by simp⟩
    · intro c hc; simp only [CharClass.test, bne_iff_ne, ne_eq]; rintro rfl; exact hattrs hc
    · intro c hc; simp only [CharClass.test, bne_iff_ne, ne_eq]; rintro rfl; exact hraw hc

/-- What the link pattern produces. -/
theorem matches_hrefPattern (m : MatchResult) :
    Matches hrefPattern m ↔
      ∃ link, dquote ∉ link ∧ m = ⟨hrefOpen ++ link ++ [dquote], [link]⟩ := by
  have hpat : hrefPattern = literal hrefOpen ++ (⟨.non dquote, .star, true⟩ ::
      (literal [dquote] ++ [])) := by
    simp [hrefPattern, hrefOpen]
  rw [hpat, matches_literal]
  simp only [matches_star, matches_literal, matches_nil]
  constructor
  · rintro ⟨m1, ⟨link, m2, hlink, ⟨m3, rfl, rfl⟩, rfl⟩, rfl⟩
    refine ⟨link, ?_, by simp⟩
    intro hmem; simpa [CharClass.test] using hlink _ hmem
  · rintro ⟨link, hlink, rfl⟩
    refine ⟨_, ⟨link, _, ?_, ⟨_, rfl, rfl⟩, rfl⟩, by simp⟩
    intro c hc; simp only [CharClass.test, bne_iff_ne, ne_eq]; rintro rfl; exact hlink hc

/-- A match found by `regexMatch` is produced by the pattern, occurs in the input, and no
text the pattern produces occurs further left. -/
theorem regexMatch_sound (pat : List Piece) (s : List Char) (m : MatchResult)
    (h : regexMatch pat s = some m) :
    Matches pat m ∧ ∃ pre rest, s = pre ++ m.whole ++ rest ∧
      matchHere pat (m.whole ++ rest) = some m ∧
      ∀ pre' m' rest', Matches pat m' → s = pre' ++ m'.whole ++ rest' →
        pre.length ≤ pre'.length := by
  obtain ⟨pre, suf, hs, hm, hleft⟩ := regexMatch_some pat s m h
  obtain ⟨hM, rest, hsuf⟩ := matchHere_sound pat suf m hm
  refine ⟨hM, pre, rest, by rw [hs, hsuf, List.append_assoc], by rw [← hsuf]; exact hm, ?_⟩
  intro pre' m' rest' hM' hs'
  by_contra hlt
  have hnone := hleft pre' (m'.whole ++ rest') (by rw [hs', List.append_assoc]) (by omega)
  have hsome := matchHere_complete pat m' hM' rest'
  rw [hnone] at hsome
  exact absurd hsome (by simp)

/-- The search `regexMatch` succeeds whenever a text the pattern produces occurs in the input. -/
theorem regexMatch_complete (pat : List Piece) (m : MatchResult) (hM : Matches pat m)
    (pre rest : List Char) : (regexMatch pat (pre ++ m.whole ++ rest)).isSome = true := by
  cases hr : regexMatch pat (pre ++ m.whole ++ rest) with
  | some _ => rfl
  | none =>
    have hnone := regexMatch_none pat _ hr pre (m.whole ++ rest) (by rw [List.append_assoc])
    have hsome := matchHere_complete pat m hM rest
    rw [hnone] at hsome
    exact absurd hsome (by simp)

theorem titleText_some (e raw : List Char) (h : titleText e = some raw) : TitleField e raw := by
  simp only [titleText, Option.map_eq_some'] at h
  obtain ⟨m, hm, hraw⟩ := h
  obtain ⟨hM, pre, rest, hs, _, _⟩ := regexMatch_sound _ _ _ hm
  obtain ⟨attrs, raw', hattrs, hraw', rfl⟩ := (matches_titlePattern m).1 hM
  simp only [List.headD_cons] at hraw
  subst hraw
  exact ⟨pre, attrs, rest, hs, hattrs, hraw'⟩

theorem titleText_isSome (e raw : List Char) (h : TitleField e raw) :
    (titleText e).isSome = true := by
  obtain ⟨pre, attrs, post, rfl, hattrs, hraw⟩ := h
  have hM : Matches titlePattern
      ⟨"<title".toList ++ attrs ++ ">".toList ++ raw ++ "</title>".toList, [raw]⟩ :=
    (matches_titlePattern _).2 ⟨attrs, raw, hattrs, hraw, rfl⟩
  have := regexMatch_complete titlePattern _ hM pre post
  simpa [titleText] using this

/-- The link the program reads is the value of the first `href="` of the entry. -/
theorem downloadLink_some (e link : List Char) (h : downloadLink e = some link) :
    ∃ pre post, e = pre ++ (hrefOpen ++ link ++ [dquote]) ++ post ∧ dquote ∉ link ∧
      ∀ pre' post', e = pre' ++ hrefOpen ++ post' → pre.length ≤ pre'.length := by
  simp only [downloadLink, Option.map_eq_some'] at h
  obtain ⟨m, hm, hlink⟩ := h
  obtain ⟨hM, pre, rest, hs, _, hleft⟩ := regexMatch_sound _ _ _ hm
  obtain ⟨link', hq, rfl⟩ := (matches_hrefPattern m).1 hM
  simp only [List.headD_cons] at hlink
  subst hlink
  refine ⟨pre, rest, hs, hq, ?_⟩
  intro pre' post' hs'
  by_contra hlt
  have hlt : pre'.length < pre.length := by omega
  -- the closing quote of the match lies in `post'`
  have hsuf1 : (dquote :: rest) <:+ e := ⟨pre ++ hrefOpen ++ link', by rw [hs]; simp⟩
  have hsuf2 : post' <:+ e := ⟨pre' ++ hrefOpen, hs'.symm⟩
  have hlen : (dquote :: rest).length ≤ post'.length := by
    have h1 := congrArg List.length hs
    have h2 := congrArg List.length hs'
    simp only [List.length_append, List.length_cons, List.length_nil] at h1 h2 ⊢
    omega
  have hmem : dquote ∈ post' :=
    (List.suffix_of_suffix_length_le hsuf1 hsuf2 hlen).subset (List.mem_cons_self _ _)
  obtain ⟨y, z, hy, hqy⟩ := List.eq_append_cons_of_mem hmem
  have hM' : Matches hrefPattern ⟨hrefOpen ++ y ++ [dquote], [y]⟩ :=
    (matches_hrefPattern _).2 ⟨y, hqy, rfl⟩
  have := hleft pre' _ z hM' (by rw [hs', hy]; simp)
  omega

theorem downloadLink_isSome (e link : List Char) (h : LinkAttr e link) :
    (downloadLink e).isSome = true := by
  obtain ⟨pre, post, rfl, hq⟩ := h
  have hM : Matches hrefPattern ⟨hrefOpen ++ link ++ [dquote], [link]⟩ :=
    (matches_hrefPattern _).2 ⟨link, hq, rfl⟩
  have := regexMatch_complete hrefPattern _ hM pre post
  simpa [downloadLink] using this

/-! ## Dotted quads -/

theorem matches_lit (c : Char) (ps : List Piece) (m : MatchResult) :
    Matches (⟨.lit c, .once, false⟩ :: ps) m ↔
      ∃ m', Matches ps m' ∧ m = ⟨c :: m'.whole, m'.groups⟩ :=
  matches_literal [c] ps m

/-- What the version pattern produces. -/
theorem matches_versionPattern (m : MatchResult) :
    Matches versionPattern m ↔ IsDottedQuad m.whole ∧ m.groups = [] := by
  simp only [versionPattern, matches_plus, matches_lit, matches_nil]
  constructor
  · rintro ⟨a, m1, ⟨ha, ha'⟩, ⟨m2, ⟨b, m3, ⟨hb, hb'⟩, ⟨m4, ⟨c, m5, ⟨hc, hc'⟩,
      ⟨m6, ⟨d, m7, ⟨hd, hd'⟩, rfl, rfl⟩, rfl⟩, rfl⟩, rfl⟩, rfl⟩, rfl⟩, rfl⟩
    exact ⟨⟨a, b, c, d, ⟨ha', ha⟩, ⟨hb', hb⟩, ⟨hc', hc⟩, ⟨hd', hd⟩, by simp⟩, by simp⟩
  · rintro ⟨⟨a, b, c, d, ⟨ha', ha⟩, ⟨hb', hb⟩, ⟨hc', hc⟩, ⟨hd', hd⟩, hw⟩, hg⟩
    obtain ⟨w, g⟩ := m
    simp only at hw hg
    subst hw hg
    exact ⟨a, _, ⟨ha, ha'⟩, ⟨_, ⟨b, _, ⟨hb, hb'⟩, ⟨_, ⟨c, _, ⟨hc, hc'⟩,
      ⟨_, ⟨d, _, ⟨hd, hd'⟩, rfl, rfl⟩, rfl⟩, rfl⟩, rfl⟩, rfl⟩, rfl⟩, by simp⟩

/-- After a match of a pattern that ends in a greedy `+`, the next character of the input is
not in the class of that last piece. -/
theorem matchHere_last_plus (ps : List Piece) (cls : CharClass) (cap : Bool) (s : List Char)
    (m : MatchResult) (h : matchHere (ps ++ [⟨cls, .plus, cap⟩]) s = some m)
    (rest : List Char) (hs : s = m.whole ++ rest) (x : Char) (xs : List Char)
    (hrest : rest = x :: xs) : cls.test x = false := by
  induction ps generalizing s m with
  | nil =>
    obtain ⟨chunk, s', m', hs', hacc, hm', rfl, hlong⟩ := matchHere_cons_some _ _ _ _ h
    simp only [matchHere, Option.some.injEq] at hm'
    subst hm'
    simp only [MatchResult.push, List.append_nil] at hs
    by_contra hx
    have hx : cls.test x = true := by simpa using hx
    have := hlong (chunk ++ [x]) xs (by rw [hs, hrest]; simp)
      ⟨by
        intro c hc
        rcases List.mem_append.1 hc with hc | hc
        · exact hacc.1 c hc
        · rw [List.mem_singleton.1 hc]; exact hx, by simp⟩ (by simp [matchHere])
    simp at this
  | cons q qs ih =>
    obtain ⟨chunk, s', m', hs', hacc, hm', rfl, hlong⟩ := matchHere_cons_some _ _ _ _ h
    apply ih s' m' hm'
    simp only [MatchResult.push, List.append_assoc] at hs
    rw [hs'] at hs
    exact List.append_cancel_left hs

theorem digits_dot_unique (a a' x x' : List Char) (ha : ∀ c ∈ a, c.isDigit = true)
    (ha' : ∀ c ∈ a', c.isDigit = true) (h : a ++ '.' :: x = a' ++ '.' :: x') :
    a = a' ∧ x = x' := by
  induction a generalizing a' with
  | nil =>
    cases a' with
    | nil => simpa using h
    | cons y ys =>
      simp only [List.nil_append, List.cons_append, List.cons.injEq] at h
      have := ha' y (List.mem_cons_self _ _)
      rw [← h.1] at this
      exact absurd this (by decide)
  | cons y ys ih =>
    cases a' with
    | nil =>
      simp only [List.nil_append, List.cons_append, List.cons.injEq] at h
      have := ha y (List.mem_cons_self _ _)
      rw [h.1] at this
      exact absurd this (by decide)
    | cons z zs =>
      simp only [List.cons_append, List.cons.injEq] at h
      obtain ⟨h1, h2⟩ := ih zs (fun c hc => ha c (List.mem_cons_of_mem _ hc))
        (fun c hc => ha' c (List.mem_cons_of_mem _ hc)) h.2
      exact ⟨by rw [h.1, h1], h2⟩

theorem digits_prefix (d d' rest post' : List Char) (hd' : ∀ c ∈ d', c.isDigit = true)
    (hrest : ∀ x xs, rest = x :: xs → x.isDigit = false) (h : d ++ rest = d' ++ post') :
    d' <+: d := by
  have h1 : d <+: d ++ rest := List.prefix_append _ _
  have h2 : d' <+: d ++ rest := by rw [h]; exact List.prefix_append _ _
  rcases List.prefix_or_prefix_of_prefix h1 h2 with hp | hp
  · obtain ⟨u, rfl⟩ := hp
    cases u with
    | nil => simp
    | cons x xs =>
      rw [List.append_assoc] at h
      have hr := List.append_cancel_left h
      have hx := hrest x (xs ++ post') (by rw [hr]; rfl)
      have hx' := hd' x (by simp)
      rw [hx] at hx'
      exact absurd hx' (by decide)
  · exact hp

theorem dottedQuad_prefix (v w' rest post' : List Char) (hv : IsDottedQuad v)
    (hw : IsDottedQuad w') (hrest : ∀ x xs, rest = x :: xs → x.isDigit = false)
    (h : v ++ rest = w' ++ post') : w' <+: v := by
  obtain ⟨a, b, c, d, ha, hb, hc, hd, rfl⟩ := hv
  obtain ⟨a', b', c', d', ha', hb', hc', hd', rfl⟩ := hw
  simp only [List.append_assoc, List.cons_append] at h
  obtain ⟨rfl, h1⟩ := digits_dot_unique _ _ _ _ ha.2 ha'.2 h
  obtain ⟨rfl, h2⟩ := digits_dot_unique _ _ _ _ hb.2 hb'.2 h1
  obtain ⟨rfl, h3⟩ := digits_dot_unique _ _ _ _ hc.2 hc'.2 h2
  obtain ⟨u, rfl⟩ := digits_prefix d d' rest post' hd'.2 hrest h3
  exact ⟨u, by simp⟩

theorem isDottedQuad_cons (x : Char) (v : List Char) (hx : x.isDigit = true)
    (hv : IsDottedQuad v) : IsDottedQuad (x :: v) := by
  obtain ⟨a, b, c, d, ha, hb, hc, hd, rfl⟩ := hv
  refine ⟨x :: a, b, c, d, ⟨by simp, ?_⟩, hb, hc, hd, rfl⟩
  intro y hy
  rcases List.mem_cons.1 hy with rfl | hy
  · exact hx
  · exact ha.2 y hy

/-- The match of the version pattern is the first dotted quad of the text, and it is neither
preceded nor followed by a digit. -/
theorem regexMatch_version_some (t : List Char) (m : MatchResult)
    (h : regexMatch versionPattern t = some m) :
    ∃ pre post, t = pre ++ m.whole ++ post ∧ IsDottedQuad m.whole ∧
      (∀ pre' w' post', t = pre' ++ w' ++ post' → IsDottedQuad w' →
        pre.length ≤ pre'.length ∧ (pre'.length = pre.length → w' <+: m.whole)) ∧
      (∀ x, pre.getLast? = some x → x.isDigit = false) ∧
      (∀ x, post.head? = some x → x.isDigit = false) := by
  obtain ⟨hM, pre, rest, hs, hhere, hleft⟩ := regexMatch_sound _ _ _ h
  have hq : IsDottedQuad m.whole := ((matches_versionPattern m).1 hM).1
  have hfollow : ∀ x xs, rest = x :: xs → x.isDigit = false := by
    intro x xs hx
    exact matchHere_last_plus
      [⟨.digit, .plus, false⟩, ⟨.lit '.', .once, false⟩, ⟨.digit, .plus, false⟩,
       ⟨.lit '.', .once, false⟩, ⟨.digit, .plus, false⟩, ⟨.lit '.', .once, false⟩]
      .digit false (m.whole ++ rest) m hhere rest rfl x xs hx
  refine ⟨pre, rest, hs, hq, ?_, ?_, ?_⟩
  · intro pre' w' post' hs' hw'
    have hM' : Matches versionPattern ⟨w', []⟩ := (matches_versionPattern _).2 ⟨hw', rfl⟩
    refine ⟨hleft pre' _ post' hM' hs', ?_⟩
    intro hlen
    rw [hs, List.append_assoc, List.append_assoc] at hs'
    obtain ⟨_, h2⟩ := List.append_inj hs' hlen.symm
    exact dottedQuad_prefix _ _ _ _ hq hw' hfollow h2
  · intro x hx
    by_contra hd
    have hd : x.isDigit = true := by simpa using hd
    obtain ⟨pre0, rfl⟩ : ∃ pre0, pre = pre0 ++ [x] := by
      rcases List.eq_nil_or_concat pre with rfl | ⟨l, y, rfl⟩
      · simp at hx
      · rw [List.concat_eq_append, List.getLast?_concat, Option.some.injEq] at hx
        exact ⟨l, by rw [List.concat_eq_append, hx]⟩
    have hM' : Matches versionPattern ⟨x :: m.whole, []⟩ :=
      (matches_versionPattern _).2 ⟨isDottedQuad_cons x _ hd hq, rfl⟩
    have := hleft pre0 _ rest hM' (by rw [hs]; simp)
    simp at this
  · intro x hx
    cases rest with
    | nil => simp at hx
    | cons y ys =>
      simp only [List.head?_cons, Option.some.injEq] at hx
      subst hx
      exact hfollow _ _ rfl

theorem regexMatch_version_isSome (t : List Char) (h : ContainsDottedQuad t) :
    (regexMatch versionPattern t).isSome = true := by
  obtain ⟨pre, w, post, rfl, hw⟩ := h
  have hM : Matches versionPattern ⟨w, []⟩ := (matches_versionPattern _).2 ⟨hw, rfl⟩
  exact regexMatch_complete versionPattern _ hM pre post

theorem regexMatch_version_none (t : List Char) (h : ¬ ContainsDottedQuad t) :
    regexMatch versionPattern t = none := by
  cases hr : regexMatch versionPattern t with
  | none => rfl
  | some m =>
    obtain ⟨pre, post, hs, hq, _⟩ := regexMatch_version_some t m hr
    exact absurd ⟨pre, m.whole, post, hs, hq⟩ h

/-! ## Trimming -/

theorem head?_dropWhile_false (p : Char → Bool) (l : List Char) (x : Char)
    (h : (l.dropWhile p).head? = some x) : p x = false := by
  have := List.head?_dropWhile_not p l
  rw [h] at this
  exact this

theorem trim_isTrimOf (s : List Char) : IsTrimOf s (trim s) := by
  have hd : s = s.takeWhile isWhiteSpace ++ s.dropWhile isWhiteSpace :=
    (List.takeWhile_append_dropWhile isWhiteSpace s).symm
  have hr : (s.dropWhile isWhiteSpace).reverse =
      (s.dropWhile isWhiteSpace).reverse.takeWhile isWhiteSpace ++
        (s.dropWhile isWhiteSpace).reverse.dropWhile isWhiteSpace :=
    (List.takeWhile_append_dropWhile isWhiteSpace _).symm
  have hr' : s.dropWhile isWhiteSpace =
      trim s ++ ((s.dropWhile isWhiteSpace).reverse.takeWhile isWhiteSpace).reverse := by
    have := congrArg List.reverse hr
    rw [List.reverse_reverse, List.reverse_append] at this
    exact this
  refine ⟨s.takeWhile isWhiteSpace,
    ((s.dropWhile isWhiteSpace).reverse.takeWhile isWhiteSpace).reverse, ?_, ?_, ?_, ?_, ?_⟩
  · rw [List.append_assoc, ← hr']
    exact hd
  · intro c hc
    exact List.mem_takeWhile_imp hc
  · intro c hc
    exact List.mem_takeWhile_imp (List.mem_reverse.1 hc)
  · intro x hx
    apply head?_dropWhile_false isWhiteSpace s x
    rw [hr']
    cases ht : trim s with
    | nil => rw [ht] at hx; simp at hx
    | cons y ys => rw [ht] at hx; simpa using hx
  · intro x hx
    apply head?_dropWhile_false isWhiteSpace (s.dropWhile isWhiteSpace).reverse x
    rw [← List.getLast?_reverse]
    exact hx

/-! ## The release selected -/

theorem getLatestWin64Release_eq (releaseFeed e t l : List Char) (he : entry releaseFeed = some e)
    (ht : title e = some t) (hl : downloadLink e = some l) :
    getLatestWin64Release releaseFeed = .ok ⟨cleanVersion t, l⟩ := by
  simp [getLatestWin64Release, he, ht, hl]

theorem getLatestWin64Release_ok (releaseFeed : List Char) (r : Release)
    (h : getLatestWin64Release releaseFeed = .ok r) :
    ∃ e t l, entry releaseFeed = some e ∧ title e = some t ∧ downloadLink e = some l ∧
      r = ⟨cleanVersion t, l⟩ := by
  unfold getLatestWin64Release at h
  split at h
  · simp at h
  · rename_i e he
    split at h
    · simp at h
    · rename_i t ht
      split at h
      · simp at h
      · rename_i l hl
        simp only [Except.ok.injEq] at h
        exact ⟨e, t, l, he, ht, hl, h.symm⟩

theorem entry_eq_none (releaseFeed : List Char)
    (h : ∀ seg ∈ entries releaseFeed, ¬ platformMarker <:+: seg) : entry releaseFeed = none := by
  simp only [entry, List.find?_eq_none, includes_iff]
  exact h

/-- C1: when some segment after the first `<entry` contains the platform marker, the segments
searched are those of splitting the feed on `<entry` (pieces free of `<entry` that, joined with
it, give back the feed) without the piece before the first separator, the entry selected is the
earliest of them that contains the marker, and the result of `getLatestWin64Release` is made of
the title and the link of that segment. -/
theorem getLatestWin64Release_selects_first_entry (releaseFeed : List Char)
    (h : ∃ seg ∈ entries releaseFeed, platformMarker <:+: seg) :
    ∃ head before seg after,
      split releaseFeed entryTag = head :: entries releaseFeed ∧
      List.intercalate entryTag (head :: entries releaseFeed) = releaseFeed ∧
      (∀ piece ∈ head :: entries releaseFeed, ¬ entryTag <:+: piece) ∧
      entries releaseFeed = before ++ seg :: after ∧
      platformMarker <:+: seg ∧
      (∀ earlier ∈ before, ¬ platformMarker <:+: earlier) ∧
      entry releaseFeed = some seg ∧
      ∀ r, getLatestWin64Release releaseFeed = .ok r ↔
        ∃ t l, title seg = some t ∧ downloadLink seg = some l ∧ r = ⟨cleanVersion t, l⟩ := by
  obtain ⟨head, tl, hsplit⟩ : ∃ head tl, split releaseFeed entryTag = head :: tl :=
    List.exists_cons_of_ne_nil (splitScan_ne_nil _ _ _ _)
  have hentries : entries releaseFeed = tl := by simp [entries, hsplit]
  cases he : entry releaseFeed with
  | none =>
    obtain ⟨seg, hmem, hseg⟩ := h
    simp only [entry, List.find?_eq_none, includes_iff] at he
    exact absurd hseg (he seg hmem)
  | some seg =>
    have he' := he
    simp only [entry, List.find?_eq_some, includes_iff] at he'
    obtain ⟨hseg, before, after, hdecomp, hbefore⟩ := he'
    refine ⟨head, before, seg, after, by rw [hentries, hsplit], ?_, ?_, hdecomp, hseg, ?_, rfl,
      ?_⟩
    · rw [hentries, ← hsplit]
      exact intercalate_split releaseFeed entryTag (by decide)
    · rw [hentries, ← hsplit]
      exact split_no_separator releaseFeed entryTag (by decide)
    · intro earlier hmem hinf
      have := hbefore earlier hmem
      rw [(includes_iff _ _).2 hinf] at this
      exact absurd this (by decide)
    · intro r
      constructor
      · intro hr
        obtain ⟨e, t, l, he2, ht, hl, hr'⟩ := getLatestWin64Release_ok _ _ hr
        rw [he] at he2
        simp only [Option.some.injEq] at he2
        subst he2
        exact ⟨t, l, ht, hl, hr'⟩
      · rintro ⟨t, l, ht, hl, rfl⟩
        exact getLatestWin64Release_eq _ _ _ _ he ht hl

theorem getLatestWin64Release_selects_first_entry_witness :
    (∃ seg ∈ entries (sampleFeed "Release 120.0.6099.5".toList "https://example.com/new".toList),
      platformMarker <:+: seg) ∧
    ∃ head before seg after,
      split (sampleFeed "Release 120.0.6099.5".toList "https://example.com/new".toList) entryTag =
        head :: entries (sampleFeed "Release 120.0.6099.5".toList "https://example.com/new".toList) ∧
      List.intercalate entryTag
        (head :: entries (sampleFeed "Release 120.0.6099.5".toList "https://example.com/new".toList)) =
          sampleFeed "Release 120.0.6099.5".toList "https://example.com/new".toList ∧
      (∀ piece ∈ head ::
          entries (sampleFeed "Release 120.0.6099.5".toList "https://example.com/new".toList),
        ¬ entryTag <:+: piece) ∧
      entries (sampleFeed "Release 120.0.6099.5".toList "https://example.com/new".toList) =
        before ++ seg :: after ∧
      platformMarker <:+: seg ∧
      (∀ earlier ∈ before, ¬ platformMarker <:+: earlier) ∧
      entry (sampleFeed "Release 120.0.6099.5".toList "https://example.com/new".toList) = some seg ∧
      ∀ r, getLatestWin64Release
          (sampleFeed "Release 120.0.6099.5".toList "https://example.com/new".toList) = .ok r ↔
        ∃ t l, title seg = some t ∧ downloadLink seg = some l ∧ r = ⟨cleanVersion t, l⟩ :=
  have h : ∃ seg ∈ entries (sampleFeed "Release 120.0.6099.5".toList
      "https://example.com/new".toList), platformMarker <:+: seg :=
    ⟨sampleEntry "Release 120.0.6099.5".toList "https://example.com/new".toList, by decide,
      (includes_iff _ _).1 (by decide)⟩
  ⟨h, getLatestWin64Release_selects_first_entry _ h⟩

/-- C6: on a feed none of whose entries contains the platform marker, `getLatestWin64Release`
throws instead of returning a result, and `checkForUpdates` fails without asking the browser
for anything: no event is recorded, so no page is opened and no script is injected. -/
theorem checkForUpdates_fails_without_matching_entry (releaseFeed : List Char)
    (h : ∀ seg ∈ entries releaseFeed, ¬ platformMarker <:+: seg) :
    getLatestWin64Release releaseFeed = .error .typeError ∧
    ∀ (host : Host) (log : List Event), host.feedText = .ok releaseFeed →
      ∃ err, checkForUpdates host log = (.error err, log) := by
  have hg : getLatestWin64Release releaseFeed = .error .typeError := by
    simp [getLatestWin64Release, entry_eq_none releaseFeed h]
  refine ⟨hg, ?_⟩
  intro host log hfeed
  cases hv : host.uaFullVersion with
  | error err =>
    exact ⟨err, by
      simp [checkForUpdates, promiseAll, Eff.andThen, Eff.lift, fetchLatestReleaseFeed,
        getChromeVersion, hfeed, hv]⟩
  | ok cur =>
    exact ⟨.typeError, by
      simp [checkForUpdates, promiseAll, Eff.andThen, Eff.lift, Eff.ret, fetchLatestReleaseFeed,
        getChromeVersion, hfeed, hv, hg]⟩

theorem checkForUpdates_fails_without_matching_entry_witness :
    (∀ seg ∈ entries otherFeed, ¬ platformMarker <:+: seg) ∧
    getLatestWin64Release otherFeed = .error .typeError ∧
    ∀ (host : Host) (log : List Event), host.feedText = .ok otherFeed →
      ∃ err, checkForUpdates host log = (.error err, log) :=
  have h : ∀ seg ∈ entries otherFeed, ¬ platformMarker <:+: seg := by
    intro seg hseg hinf
    have hall : (entries otherFeed).all (fun seg => !includes seg platformMarker) = true := by
      decide
    have := List.all_eq_true.1 hall seg hseg
    rw [(includes_iff _ _).2 hinf] at this
    exact absurd this (by decide)
  ⟨h, checkForUpdates_fails_without_matching_entry otherFeed h⟩

/-- C7: when the selected entry has no title field or no link attribute,
`getLatestWin64Release` throws and returns nothing; it returns a result only when the selected
entry has both. -/
theorem getLatestWin64Release_needs_title_and_link (releaseFeed e : List Char)
    (he : entry releaseFeed = some e) :
    (((∀ raw, ¬ TitleField e raw) ∨ (∀ link, ¬ LinkAttr e link)) →
      getLatestWin64Release releaseFeed = .error .typeError) ∧
    (∀ r, getLatestWin64Release releaseFeed = .ok r →
      (∃ raw, TitleField e raw) ∧ (∃ link, LinkAttr e link)) := by
  have hok : ∀ r, getLatestWin64Release releaseFeed = .ok r →
      (∃ raw, TitleField e raw) ∧ (∃ link, LinkAttr e link) := by
    intro r hr
    obtain ⟨e', t, l, he', ht, hl, _⟩ := getLatestWin64Release_ok _ _ hr
    rw [he] at he'
    simp only [Option.some.injEq] at he'
    subst he'
    simp only [title, Option.map_eq_some'] at ht
    obtain ⟨raw, hraw, _⟩ := ht
    obtain ⟨pre, post, hs, hq, _⟩ := downloadLink_some _ _ hl
    exact ⟨⟨raw, titleText_some _ _ hraw⟩, ⟨l, pre, post, hs, hq⟩⟩
  refine ⟨?_, hok⟩
  intro hlack
  cases hr : getLatestWin64Release releaseFeed with
  | ok r =>
    obtain ⟨⟨raw, hraw⟩, ⟨link, hlink⟩⟩ := hok r hr
    rcases hlack with h | h
    · exact absurd hraw (h raw)
    · exact absurd hlink (h link)
  | error err =>
    cases err with
    | typeError => rfl
    | rejected =>
      unfold getLatestWin64Release at hr
      rw [he] at hr
      simp only at hr
      split at hr
      · simp at hr
      · split at hr <;> simp at hr

theorem getLatestWin64Release_needs_title_and_link_witness :
    entry untitledFeed = some (untitledFeed.drop 12) ∧
    (∀ raw, ¬ TitleField (untitledFeed.drop 12) raw) ∧
    getLatestWin64Release untitledFeed = .error .typeError :=
  have hlack : ∀ raw, ¬ TitleField (untitledFeed.drop 12) raw := fun raw h =>
    absurd (titleText_isSome _ raw h) (by decide)
  ⟨by decide, hlack,
    (getLatestWin64Release_needs_title_and_link untitledFeed _ (by decide)).1 (Or.inl hlack)⟩

/-- C9: the link returned is the value of the first `href="` of the selected entry: the entry is
some text, `href="`, the link, a double quote and the rest, the link holds no double quote, and
`href="` does not occur in the entry further left. -/
theorem getLatestWin64Release_link_is_first_href (releaseFeed : List Char) (r : Release)
    (h : getLatestWin64Release releaseFeed = .ok r) :
    ∃ e pre post, entry releaseFeed = some e ∧
      e = pre ++ (hrefOpen ++ r.downloadLink ++ [dquote]) ++ post ∧
      dquote ∉ r.downloadLink ∧
      ∀ pre' post', e = pre' ++ hrefOpen ++ post' → pre.length ≤ pre'.length := by
  obtain ⟨e, t, l, he, _, hl, rfl⟩ := getLatestWin64Release_ok _ _ h
  obtain ⟨pre, post, hs, hq, hfirst⟩ := downloadLink_some _ _ hl
  exact ⟨e, pre, post, he, hs, hq, hfirst⟩

theorem getLatestWin64Release_link_is_first_href_witness :
    getLatestWin64Release (sampleFeed "Release 120.0.6099.5".toList
        "https://example.com/new".toList) =
      .ok ⟨"120.0.6099.5".toList, "https://example.com/new".toList⟩ ∧
    ∃ e pre post,
      entry (sampleFeed "Release 120.0.6099.5".toList "https://example.com/new".toList) = some e ∧
      e = pre ++ (hrefOpen ++ "https://example.com/new".toList ++ [dquote]) ++ post ∧
      dquote ∉ "https://example.com/new".toList ∧
      ∀ pre' post', e = pre' ++ hrefOpen ++ post' → pre.length ≤ pre'.length :=
  ⟨rfl, getLatestWin64Release_link_is_first_href
    (sampleFeed "Release 120.0.6099.5".toList "https://example.com/new".toList)
    ⟨"120.0.6099.5".toList, "https://example.com/new".toList⟩ rfl⟩

/-! ## The check -/

theorem notifyBrowserStatus_eq (host : Host) (message : List Char) (tabId : Nat)
    (log : List Event) :
    notifyBrowserStatus host message tabId log =
      (.ok (), log ++ [.executeScript tabId message] ++ warning (host.scripting tabId message)) := by
  simp only [notifyBrowserStatus, Eff.catch, Eff.andThen, Eff.emit, Eff.lift, warning]
  cases host.scripting tabId message <;> simp

theorem notifyOutdatedBrowser_eq (host : Host) (cur v l : List Char) (log : List Event) :
    notifyOutdatedBrowser host cur v l log =
      (.ok (), log ++ [.tabsCreate l, .executeScript (host.newTabId l) (outdatedMessage cur v)] ++
        warning (host.scripting (host.newTabId l) (outdatedMessage cur v))) := by
  simp [notifyOutdatedBrowser, createTab, notifyBrowserStatus_eq]

theorem checkForUpdates_eq (host : Host) (releaseFeed cur : List Char) (r : Release)
    (log : List Event) (hf : host.feedText = .ok releaseFeed) (hv : host.uaFullVersion = .ok cur)
    (hr : getLatestWin64Release releaseFeed = .ok r) :
    checkForUpdates host log =
      if cur ≠ r.cleanVersion then
        (.ok false, (notifyOutdatedBrowser host cur r.cleanVersion r.downloadLink log).2)
      else (.ok true, log) := by
  simp only [checkForUpdates, promiseAll, Eff.andThen, Eff.lift, Eff.ret, fetchLatestReleaseFeed,
    getChromeVersion, hf, hv, hr]
  split
  · simp only [Eff.andThen, Eff.ret, notifyOutdatedBrowser_eq]
  · rfl

/-- C4: when the feed and the local version are read and a release is extracted,
`checkForUpdates` resolves to true exactly when the local version equals the extracted version
as a string, and to false otherwise; in particular any version is up to date against itself,
and `119.0.6045.123` is not up to date against `119.0.06045.123`. -/
theorem checkForUpdates_true_iff_same_string :
    (∀ (host : Host) (releaseFeed cur : List Char) (r : Release) (log : List Event),
      host.feedText = .ok releaseFeed → host.uaFullVersion = .ok cur →
      getLatestWin64Release releaseFeed = .ok r →
        ((checkForUpdates host log).1 = .ok true ↔ cur = r.cleanVersion) ∧
        ((checkForUpdates host log).1 = .ok false ↔ cur ≠ r.cleanVersion)) ∧
    (∀ (host : Host) (releaseFeed : List Char) (r : Release) (log : List Event),
      host.feedText = .ok releaseFeed → host.uaFullVersion = .ok r.cleanVersion →
      getLatestWin64Release releaseFeed = .ok r → (checkForUpdates host log).1 = .ok true) ∧
    (getLatestWin64Release
        (sampleFeed "Release 119.0.06045.123".toList "https://example.com/dl".toList) =
      .ok ⟨"119.0.06045.123".toList, "https://example.com/dl".toList⟩ ∧
     (checkForUpdates
        (sampleHost (sampleFeed "Release 119.0.06045.123".toList "https://example.com/dl".toList)
          "119.0.6045.123".toList) []).1 = .ok false) := by
  have main : ∀ (host : Host) (releaseFeed cur : List Char) (r : Release) (log : List Event),
      host.feedText = .ok releaseFeed → host.uaFullVersion = .ok cur →
      getLatestWin64Release releaseFeed = .ok r →
        ((checkForUpdates host log).1 = .ok true ↔ cur = r.cleanVersion) ∧
        ((checkForUpdates host log).1 = .ok false ↔ cur ≠ r.cleanVersion) := by
    intro host releaseFeed cur r log hf hv hr
    rw [checkForUpdates_eq host releaseFeed cur r log hf hv hr]
    by_cases h : cur = r.cleanVersion
    · simp [h]
    · simp [h]
  refine ⟨main, ?_, rfl, rfl⟩
  intro host releaseFeed r log hf hv hr
  exact (main host releaseFeed _ r log hf hv hr).1.2 rfl

theorem checkForUpdates_true_iff_same_string_witness :
    (sampleHost (sampleFeed "Release 119.0.06045.123".toList "https://example.com/dl".toList)
        "119.0.6045.123".toList).feedText =
      .ok (sampleFeed "Release 119.0.06045.123".toList "https://example.com/dl".toList) ∧
    "119.0.6045.123".toList ≠ "119.0.06045.123".toList ∧
    (checkForUpdates
        (sampleHost (sampleFeed "Release 119.0.06045.123".toList "https://example.com/dl".toList)
          "119.0.6045.123".toList) []).1 = .ok false :=
  ⟨rfl, by decide,
    ((checkForUpdates_true_iff_same_string.1
      (sampleHost (sampleFeed "Release 119.0.06045.123".toList "https://example.com/dl".toList)
        "119.0.6045.123".toList)
      (sampleFeed "Release 119.0.06045.123".toList "https://example.com/dl".toList)
      "119.0.6045.123".toList ⟨"119.0.06045.123".toList, "https://example.com/dl".toList⟩ []
      rfl rfl rfl).2).2 (by decide)⟩

/-- C5: when the feed parses and the local version differs from the extracted one,
`checkForUpdates` makes the requests of one call of `notifyOutdatedBrowser` with the local
version, the extracted version and the extracted link, which are one page-open request at that
link, one script request on the tab opened, with the message naming both versions, and at most
a warning, and resolves to false; when the versions are equal it resolves to true and records
no request. -/
theorem checkForUpdates_notifies_when_outdated :
    (∀ (host : Host) (releaseFeed cur : List Char) (r : Release) (log : List Event),
      host.feedText = .ok releaseFeed → host.uaFullVersion = .ok cur →
      getLatestWin64Release releaseFeed = .ok r →
        (cur ≠ r.cleanVersion →
          checkForUpdates host log =
            (.ok false, (notifyOutdatedBrowser host cur r.cleanVersion r.downloadLink log).2) ∧
          ∃ warn, (checkForUpdates host log).2 =
              log ++ [.tabsCreate r.downloadLink,
                .executeScript (host.newTabId r.downloadLink)
                  (outdatedMessage cur r.cleanVersion)] ++ warn ∧
            ∀ ev ∈ warn, ∃ err, ev = .consoleWarn err) ∧
        (cur = r.cleanVersion → checkForUpdates host log = (.ok true, log))) ∧
    checkForUpdates
        (sampleHost (sampleFeed "Release 119.0.6045.123".toList "https://example.com/dl".toList)
          "119.0.6045.123".toList) [] = (.ok true, []) ∧
    checkForUpdates
        (sampleHost (sampleFeed "Release 120.0.6099.5".toList "https://example.com/new".toList)
          "119.0.6045.123".toList) [] =
      (.ok false, [.tabsCreate "https://example.com/new".toList,
        .executeScript 7 (outdatedMessage "119.0.6045.123".toList "120.0.6099.5".toList)]) := by
  refine ⟨?_, rfl, rfl⟩
  intro host releaseFeed cur r log hf hv hr
  rw [checkForUpdates_eq host releaseFeed cur r log hf hv hr]
  constructor
  · intro hne
    rw [if_pos hne]
    refine ⟨rfl, warning (host.scripting (host.newTabId r.downloadLink)
      (outdatedMessage cur r.cleanVersion)), by rw [notifyOutdatedBrowser_eq], ?_⟩
    intro ev hev
    unfold warning at hev
    split at hev
    · simp at hev
    · rename_i err _
      exact ⟨err, by simpa using hev⟩
  · intro heq
    rw [if_neg (by simpa using heq)]

theorem checkForUpdates_notifies_when_outdated_witness :
    getLatestWin64Release
        (sampleFeed "Release 120.0.6099.5".toList "https://example.com/new".toList) =
      .ok ⟨"120.0.6099.5".toList, "https://example.com/new".toList⟩ ∧
    "119.0.6045.123".toList ≠ "120.0.6099.5".toList ∧
    ∃ warn, (checkForUpdates
        (sampleHost (sampleFeed "Release 120.0.6099.5".toList "https://example.com/new".toList)
          "119.0.6045.123".toList) []).2 =
        [] ++ [.tabsCreate "https://example.com/new".toList,
          .executeScript 7 (outdatedMessage "119.0.6045.123".toList "120.0.6099.5".toList)] ++
          warn ∧
      ∀ ev ∈ warn, ∃ err, ev = .consoleWarn err :=
  ⟨rfl, by decide,
    (((checkForUpdates_notifies_when_outdated.1
      (sampleHost (sampleFeed "Release 120.0.6099.5".toList "https://example.com/new".toList)
        "119.0.6045.123".toList)
      (sampleFeed "Release 120.0.6099.5".toList "https://example.com/new".toList)
      "119.0.6045.123".toList ⟨"120.0.6099.5".toList, "https://example.com/new".toList⟩ []
      rfl rfl rfl).1) (by decide)).2⟩

/-- C8: `notifyBrowserStatus` never throws: when the scripting request is rejected it records a
warning and returns; and on the outdated path `checkForUpdates` resolves to false whether the
scripting request succeeds or fails. -/
theorem checkForUpdates_survives_scripting_failure (host : Host) :
    (∀ (message : List Char) (tabId : Nat) (log : List Event),
      (notifyBrowserStatus host message tabId log).1 = .ok () ∧
      ∀ err, host.scripting tabId message = .error err →
        notifyBrowserStatus host message tabId log =
          (.ok (), log ++ [.executeScript tabId message, .consoleWarn err])) ∧
    (∀ (releaseFeed cur : List Char) (r : Release) (log : List Event),
      host.feedText = .ok releaseFeed → host.uaFullVersion = .ok cur →
      getLatestWin64Release releaseFeed = .ok r → cur ≠ r.cleanVersion →
        (checkForUpdates host log).1 = .ok false) := by
  constructor
  · intro message tabId log
    rw [notifyBrowserStatus_eq]
    refine ⟨rfl, ?_⟩
    intro err herr
    simp [herr, warning]
  · intro releaseFeed cur r log hf hv hr hne
    rw [checkForUpdates_eq host releaseFeed cur r log hf hv hr, if_pos hne]

theorem checkForUpdates_survives_scripting_failure_witness :
    (restrictedHost (sampleFeed "Release 120.0.6099.5".toList "https://example.com/new".toList)
        "119.0.6045.123".toList).scripting 7
        (outdatedMessage "119.0.6045.123".toList "120.0.6099.5".toList) = .error .rejected ∧
    "119.0.6045.123".toList ≠ "120.0.6099.5".toList ∧
    (checkForUpdates
      (restrictedHost (sampleFeed "Release 120.0.6099.5".toList "https://example.com/new".toList)
        "119.0.6045.123".toList) []).1 = .ok false ∧
    checkForUpdates
      (restrictedHost (sampleFeed "Release 120.0.6099.5".toList "https://example.com/new".toList)
        "119.0.6045.123".toList) [] =
      (.ok false, [.tabsCreate "https://example.com/new".toList,
        .executeScript 7 (outdatedMessage "119.0.6045.123".toList "120.0.6099.5".toList),
        .consoleWarn .rejected]) :=
  ⟨rfl, by decide,
    (checkForUpdates_survives_scripting_failure
      (restrictedHost (sampleFeed "Release 120.0.6099.5".toList "https://example.com/new".toList)
        "119.0.6045.123".toList)).2
      (sampleFeed "Release 120.0.6099.5".toList "https://example.com/new".toList)
      "119.0.6045.123".toList ⟨"120.0.6099.5".toList, "https://example.com/new".toList⟩ []
      rfl rfl rfl (by decide),
    rfl⟩

/-! ## The version -/

theorem isDigit_iff (c : Char) : c.isDigit = true ↔ 48 ≤ c.toNat ∧ c.toNat ≤ 57 := by
  simp only [Char.isDigit, Bool.and_eq_true, decide_eq_true_eq, Char.toNat]
  constructor
  · rintro ⟨h1, h2⟩
    exact ⟨h1, h2⟩
  · rintro ⟨h1, h2⟩
    exact ⟨h1, h2⟩

theorem isWhiteSpace_not_digit (c : Char) (h : isWhiteSpace c = true) : c.isDigit = false := by
  by_contra hd
  have hd : c.isDigit = true := by simpa using hd
  rw [isDigit_iff] at hd
  simp only [isWhiteSpace, Bool.or_eq_true, beq_iff_eq, Bool.and_eq_true, decide_eq_true_eq] at h
  omega

theorem isDottedQuad_head (w : List Char) (hw : IsDottedQuad w) :
    ∃ x rest, w = x :: rest ∧ x.isDigit = true := by
  obtain ⟨a, b, c, d, ha, _, _, _, rfl⟩ := hw
  obtain ⟨x, xs, rfl⟩ := List.exists_cons_of_ne_nil ha.1
  exact ⟨x, _, rfl, ha.2 x (List.mem_cons_self _ _)⟩

theorem isDottedQuad_last (w : List Char) (hw : IsDottedQuad w) :
    ∃ init y, w = init ++ [y] ∧ y.isDigit = true := by
  obtain ⟨a, b, c, d, _, _, _, hd, rfl⟩ := hw
  rcases List.eq_nil_or_concat d with hnil | ⟨init, y, rfl⟩
  · exact absurd hnil hd.1
  · refine ⟨a ++ '.' :: (b ++ '.' :: (c ++ '.' :: init)), y, by simp, ?_⟩
    exact hd.2 y (by simp)

/-- A dotted quad that occurs in a text padded with white space occurs in the text itself. -/
theorem dottedQuad_inside (lead t trail pre' w' post' : List Char)
    (hlead : ∀ c ∈ lead, isWhiteSpace c = true) (htrail : ∀ c ∈ trail, isWhiteSpace c = true)
    (hw : IsDottedQuad w') (h : lead ++ t ++ trail = pre' ++ w' ++ post') :
    ∃ p q, pre' = lead ++ p ∧ post' = q ++ trail ∧ t = p ++ w' ++ q := by
  obtain ⟨x, wrest, hx, hxd⟩ := isDottedQuad_head w' hw
  obtain ⟨winit, y, hy, hyd⟩ := isDottedQuad_last w' hw
  -- the occurrence starts after the leading white space
  have hpre : lead <+: pre' := by
    have h1 : lead <+: lead ++ t ++ trail := ⟨t ++ trail, by simp⟩
    have h2 : pre' <+: lead ++ t ++ trail := ⟨w' ++ post', by rw [h]; simp⟩
    rcases List.prefix_or_prefix_of_prefix h1 h2 with hp | hp
    · exact hp
    · obtain ⟨u, rfl⟩ := hp
      cases u with
      | nil => simp
      | cons z zs =>
        rw [hx] at h
        simp only [List.append_assoc, List.cons_append] at h
        have h' := List.append_cancel_left h
        simp only [List.cons.injEq] at h'
        have hz := hlead z (by simp)
        rw [h'.1] at hz
        rw [isWhiteSpace_not_digit x hz] at hxd
        exact absurd hxd (by decide)
  -- and ends before the trailing white space
  have hpost : trail <:+ post' := by
    have h1 : trail <:+ lead ++ t ++ trail := ⟨lead ++ t, rfl⟩
    have h2 : post' <:+ lead ++ t ++ trail := ⟨pre' ++ w', by rw [h]⟩
    rcases List.suffix_or_suffix_of_suffix h1 h2 with hp | hp
    · exact hp
    · obtain ⟨u, hu⟩ := hp
      rcases List.eq_nil_or_concat u with rfl | ⟨uinit, z, rfl⟩
      · rw [← hu]; simp
      · have hz := htrail z (by rw [← hu]; simp)
        rw [← hu, hy, List.concat_eq_append] at h
        have h' : (lead ++ t ++ uinit) ++ ([z] ++ post') = (pre' ++ winit) ++ ([y] ++ post') := by
          simpa using h
        have h'' := List.append_cancel_right (by simpa using h' :
          (lead ++ t ++ uinit ++ [z]) ++ post' = (pre' ++ winit ++ [y]) ++ post')
        have hzy : z = y := by
          have := congrArg List.getLast? h''
          simpa using this
        rw [← hzy, isWhiteSpace_not_digit z hz] at hyd
        exact absurd hyd (by decide)
  obtain ⟨p, rfl⟩ := hpre
  obtain ⟨q, rfl⟩ := hpost
  refine ⟨p, q, rfl, rfl, ?_⟩
  have h1 : lead ++ (t ++ trail) = lead ++ (p ++ w' ++ q ++ trail) := by simpa using h
  have h2 := List.append_cancel_left h1
  exact List.append_cancel_right h2

theorem cleanVersion_of_some (t : List Char) (m : MatchResult)
    (h : regexMatch versionPattern t = some m) : cleanVersion t = m.whole := by
  simp [cleanVersion, h]

theorem cleanVersion_of_not_contains (t : List Char) (h : ¬ ContainsDottedQuad t) :
    cleanVersion t = t := by
  simp [cleanVersion, regexMatch_version_none t h]

/-- Where the version sits in a title `lead ++ t ++ trail` padded with white space, `t` being
the text the version pattern is run on. -/
theorem cleanVersion_occurrence (lead t trail : List Char)
    (hlead : ∀ c ∈ lead, isWhiteSpace c = true) (htrail : ∀ c ∈ trail, isWhiteSpace c = true)
    (h : ContainsDottedQuad (lead ++ t ++ trail)) :
    ∃ pre post, lead ++ t ++ trail = pre ++ cleanVersion t ++ post ∧
      IsDottedQuad (cleanVersion t) ∧
      (∀ pre' w' post', lead ++ t ++ trail = pre' ++ w' ++ post' → IsDottedQuad w' →
        pre.length ≤ pre'.length ∧ (pre'.length = pre.length → w' <+: cleanVersion t)) ∧
      (∀ x, pre.getLast? = some x → x.isDigit = false) ∧
      (∀ x, post.head? = some x → x.isDigit = false) := by
  have ht : ContainsDottedQuad t := by
    obtain ⟨pre', w', post', hs, hw⟩ := h
    obtain ⟨p, q, _, _, htq⟩ := dottedQuad_inside lead t trail pre' w' post' hlead htrail hw hs
    exact ⟨p, w', q, htq, hw⟩
  obtain ⟨m, hm⟩ := Option.isSome_iff_exists.1 (regexMatch_version_isSome t ht)
  rw [cleanVersion_of_some t m hm]
  obtain ⟨pre0, post0, hs0, hq, hfirst, hbefore, hafter⟩ := regexMatch_version_some t m hm
  refine ⟨lead ++ pre0, post0 ++ trail, by rw [hs0]; simp, hq, ?_, ?_, ?_⟩
  · intro pre' w' post' hs hw
    obtain ⟨p, q, rfl, rfl, htq⟩ := dottedQuad_inside lead t trail pre' w' post' hlead htrail hw hs
    obtain ⟨h1, h2⟩ := hfirst p w' q htq hw
    refine ⟨by simpa using h1, ?_⟩
    intro hlen
    exact h2 (by simpa using hlen)
  · intro x hx
    rcases List.eq_nil_or_concat pre0 with rfl | ⟨init, y, rfl⟩
    · rw [List.append_nil] at hx
      exact isWhiteSpace_not_digit x (hlead x (List.mem_of_getLast?_eq_some hx))
    · apply hbefore x
      rw [List.concat_eq_append] at hx ⊢
      rw [← List.append_assoc, List.getLast?_concat] at hx
      rw [List.getLast?_concat]
      exact hx
  · intro x hx
    cases post0 with
    | nil =>
      rw [List.nil_append] at hx
      exact isWhiteSpace_not_digit x (htrail x (List.mem_of_mem_head? hx))
    | cons y ys =>
      apply hafter x
      simpa using hx

theorem isDottedQuad_count (v : List Char) (hv : IsDottedQuad v) : v.count '.' = 3 := by
  obtain ⟨a, b, c, d, ha, hb, hc, hd, rfl⟩ := hv
  have hz : ∀ w : List Char, IsDigits w → w.count '.' = 0 := by
    intro w hw
    rw [List.count_eq_zero]
    intro hmem
    exact absurd (hw.2 _ hmem) (by decide)
  simp [List.count_append, List.count_cons, hz a ha, hz b hb, hz c hc, hz d hd]

theorem title_eq (e raw : List Char) (h : titleText e = some raw) : title e = some (trim raw) := by
  simp [title, h]

theorem firstDottedQuad_of_occurrence (lead t trail : List Char)
    (hlead : ∀ c ∈ lead, isWhiteSpace c = true) (htrail : ∀ c ∈ trail, isWhiteSpace c = true)
    (h : ContainsDottedQuad (lead ++ t ++ trail)) :
    FirstDottedQuad (lead ++ t ++ trail) (cleanVersion t) := by
  obtain ⟨pre, post, hs, hq, hfirst, _, _⟩ := cleanVersion_occurrence lead t trail hlead htrail h
  exact ⟨pre, post, hs, hq, hfirst⟩

theorem containsDottedQuad_trim (raw : List Char) (h : ContainsDottedQuad raw) :
    ContainsDottedQuad (trim raw) := by
  obtain ⟨lead, trail, hs, hlead, htrail, _, _⟩ := trim_isTrimOf raw
  obtain ⟨pre', w', post', hs', hw⟩ := h
  obtain ⟨p, q, _, _, htq⟩ := dottedQuad_inside lead (trim raw) trail pre' w' post' hlead htrail
    hw (by rw [← hs, hs'])
  exact ⟨p, w', q, htq, hw⟩

/-- C2: when the title of the selected entry contains a dotted quad, the version returned is
the first dotted quad of the title, left to right, copied as it stands in the title: this holds
of the title text as captured and of the trimmed title the pattern is run on.  The title
`Ungoogled Chromium 119.0.6045.123 (Windows 64-bit)` gives `119.0.6045.123`, and leading zeros
are kept. -/
theorem getLatestWin64Release_version_is_first_dotted_quad :
    (∀ (releaseFeed e raw l : List Char), entry releaseFeed = some e →
      titleText e = some raw → downloadLink e = some l → ContainsDottedQuad raw →
        ∃ v, getLatestWin64Release releaseFeed = .ok ⟨v, l⟩ ∧
          FirstDottedQuad raw v ∧ FirstDottedQuad (trim raw) v) ∧
    cleanVersion "Ungoogled Chromium 119.0.6045.123 (Windows 64-bit)".toList =
      "119.0.6045.123".toList ∧
    getLatestWin64Release
        (sampleFeed "Ungoogled Chromium 119.0.6045.123 (Windows 64-bit)".toList
          "https://example.com/dl".toList) =
      .ok ⟨"119.0.6045.123".toList, "https://example.com/dl".toList⟩ ∧
    cleanVersion "Release 119.0.06045.123".toList = "119.0.06045.123".toList := by
  refine ⟨?_, by decide, rfl, by decide⟩
  intro releaseFeed e raw l he ht hl hq
  refine ⟨cleanVersion (trim raw),
    getLatestWin64Release_eq releaseFeed e (trim raw) l he (title_eq e raw ht) hl, ?_, ?_⟩
  · obtain ⟨lead, trail, hs, hlead, htrail, _, _⟩ := trim_isTrimOf raw
    have := firstDottedQuad_of_occurrence lead (trim raw) trail hlead htrail (by rw [← hs]; exact hq)
    rw [← hs] at this
    exact this
  · have := firstDottedQuad_of_occurrence [] (trim raw) [] (by simp) (by simp)
      (by simpa using containsDottedQuad_trim raw hq)
    simpa using this

theorem getLatestWin64Release_version_is_first_dotted_quad_witness :
    entry (sampleFeed " Release 120.0.6099.5 (1.2.3.4) ".toList "https://example.com/new".toList) =
      some (sampleEntry " Release 120.0.6099.5 (1.2.3.4) ".toList "https://example.com/new".toList) ∧
    ContainsDottedQuad " Release 120.0.6099.5 (1.2.3.4) ".toList ∧
    ∃ v, getLatestWin64Release
        (sampleFeed " Release 120.0.6099.5 (1.2.3.4) ".toList "https://example.com/new".toList) =
          .ok ⟨v, "https://example.com/new".toList⟩ ∧
      FirstDottedQuad " Release 120.0.6099.5 (1.2.3.4) ".toList v ∧
      FirstDottedQuad (trim " Release 120.0.6099.5 (1.2.3.4) ".toList) v :=
  ⟨by decide,
    ⟨" Release ".toList, "120.0.6099.5".toList, " (1.2.3.4) ".toList, by decide,
      "120".toList, "0".toList, "6099".toList, "5".toList,
      ⟨by decide, by decide⟩, ⟨by decide, by decide⟩, ⟨by decide, by decide⟩,
      ⟨by decide, by decide⟩, by decide⟩,
    getLatestWin64Release_version_is_first_dotted_quad.1
      (sampleFeed " Release 120.0.6099.5 (1.2.3.4) ".toList "https://example.com/new".toList)
      (sampleEntry " Release 120.0.6099.5 (1.2.3.4) ".toList "https://example.com/new".toList)
      " Release 120.0.6099.5 (1.2.3.4) ".toList "https://example.com/new".toList
      (by decide) (by decide) (by decide)
      ⟨" Release ".toList, "120.0.6099.5".toList, " (1.2.3.4) ".toList, by decide,
        "120".toList, "0".toList, "6099".toList, "5".toList,
        ⟨by decide, by decide⟩, ⟨by decide, by decide⟩, ⟨by decide, by decide⟩,
        ⟨by decide, by decide⟩, by decide⟩⟩

/-- C3: when the title of the selected entry contains no dotted quad, the version returned is
the title with its leading and trailing white space removed and nothing else changed.  The
title `  Latest Build  ` gives `Latest Build`. -/
theorem getLatestWin64Release_version_falls_back_to_trimmed_title :
    (∀ (releaseFeed e raw l : List Char), entry releaseFeed = some e →
      titleText e = some raw → downloadLink e = some l → ¬ ContainsDottedQuad raw →
        getLatestWin64Release releaseFeed = .ok ⟨trim raw, l⟩ ∧ IsTrimOf raw (trim raw)) ∧
    trim "  Latest Build  ".toList = "Latest Build".toList ∧
    getLatestWin64Release
        (sampleFeed "  Latest Build  ".toList "https://example.com/dl".toList) =
      .ok ⟨"Latest Build".toList, "https://example.com/dl".toList⟩ := by
  refine ⟨?_, by decide, rfl⟩
  intro releaseFeed e raw l he ht hl hq
  have hq' : ¬ ContainsDottedQuad (trim raw) := by
    rintro ⟨pre, w, post, hs, hw⟩
    obtain ⟨lead, trail, hraw, _⟩ := trim_isTrimOf raw
    exact hq ⟨lead ++ pre, w, post ++ trail, by rw [hraw, hs]; simp, hw⟩
  have := getLatestWin64Release_eq releaseFeed e (trim raw) l he (title_eq e raw ht) hl
  rw [cleanVersion_of_not_contains _ hq'] at this
  exact ⟨this, trim_isTrimOf raw⟩

theorem getLatestWin64Release_version_falls_back_to_trimmed_title_witness :
    entry (sampleFeed "  Latest Build  ".toList "https://example.com/dl".toList) =
      some (sampleEntry "  Latest Build  ".toList "https://example.com/dl".toList) ∧
    ¬ ContainsDottedQuad "  Latest Build  ".toList ∧
    getLatestWin64Release (sampleFeed "  Latest Build  ".toList "https://example.com/dl".toList) =
      .ok ⟨trim "  Latest Build  ".toList, "https://example.com/dl".toList⟩ ∧
    IsTrimOf "  Latest Build  ".toList (trim "  Latest Build  ".toList) :=
  have hq : ¬ ContainsDottedQuad "  Latest Build  ".toList := fun h =>
    absurd (regexMatch_version_isSome _ h) (by decide)
  ⟨by decide, hq,
    getLatestWin64Release_version_falls_back_to_trimmed_title.1
      (sampleFeed "  Latest Build  ".toList "https://example.com/dl".toList)
      (sampleEntry "  Latest Build  ".toList "https://example.com/dl".toList)
      "  Latest Build  ".toList "https://example.com/dl".toList
      (by decide) (by decide) (by decide) hq⟩

/-- C10: when the title of the selected entry contains a dotted quad, the version returned is
four non-empty groups of decimal digits separated by three periods, and where it stands in the
title, captured or trimmed, at the first place a dotted quad starts, it has no decimal digit
right before it and none right after it. -/
theorem getLatestWin64Release_version_is_whole_dotted_quad (releaseFeed e raw l : List Char)
    (he : entry releaseFeed = some e) (ht : titleText e = some raw)
    (hl : downloadLink e = some l) (hq : ContainsDottedQuad raw) :
    ∃ v, getLatestWin64Release releaseFeed = .ok ⟨v, l⟩ ∧ IsDottedQuad v ∧ v.count '.' = 3 ∧
      ∀ s, s = raw ∨ s = trim raw →
        ∃ pre post, s = pre ++ v ++ post ∧
          (∀ pre' w' post', s = pre' ++ w' ++ post' → IsDottedQuad w' →
            pre.length ≤ pre'.length) ∧
          (∀ x, pre.getLast? = some x → x.isDigit = false) ∧
          (∀ x, post.head? = some x → x.isDigit = false) := by
  have hraw := trim_isTrimOf raw
  obtain ⟨lead, trail, hs, hlead, htrail, _, _⟩ := hraw
  have hocc := cleanVersion_occurrence lead (trim raw) trail hlead htrail (by rw [← hs]; exact hq)
  rw [← hs] at hocc
  have hocc' := cleanVersion_occurrence [] (trim raw) [] (by simp) (by simp)
    (by simpa using containsDottedQuad_trim raw hq)
  simp only [List.nil_append, List.append_nil] at hocc'
  obtain ⟨pre, post, h1, hv, h2, h3, h4⟩ := hocc
  obtain ⟨pre', post', h1', _, h2', h3', h4'⟩ := hocc'
  refine ⟨cleanVersion (trim raw),
    getLatestWin64Release_eq releaseFeed e (trim raw) l he (title_eq e raw ht) hl, hv,
    isDottedQuad_count _ hv, ?_⟩
  rintro s (rfl | rfl)
  · exact ⟨pre, post, h1, fun a b c hs hw => (h2 a b c hs hw).1, h3, h4⟩
  · exact ⟨pre', post', h1', fun a b c hs hw => (h2' a b c hs hw).1, h3', h4'⟩

theorem getLatestWin64Release_version_is_whole_dotted_quad_witness :
    entry (sampleFeed "v0120.0.6099.55 of 1.2.3.4".toList "https://example.com/new".toList) =
      some (sampleEntry "v0120.0.6099.55 of 1.2.3.4".toList "https://example.com/new".toList) ∧
    getLatestWin64Release
        (sampleFeed "v0120.0.6099.55 of 1.2.3.4".toList "https://example.com/new".toList) =
      .ok ⟨"0120.0.6099.55".toList, "https://example.com/new".toList⟩ ∧
    ∃ v, getLatestWin64Release
        (sampleFeed "v0120.0.6099.55 of 1.2.3.4".toList "https://example.com/new".toList) =
          .ok ⟨v, "https://example.com/new".toList⟩ ∧
      IsDottedQuad v ∧ v.count '.' = 3 ∧
      ∀ s, s = "v0120.0.6099.55 of 1.2.3.4".toList ∨
          s = trim "v0120.0.6099.55 of 1.2.3.4".toList →
        ∃ pre post, s = pre ++ v ++ post ∧
          (∀ pre' w' post', s = pre' ++ w' ++ post' → IsDottedQuad w' →
            pre.length ≤ pre'.length) ∧
          (∀ x, pre.getLast? = some x → x.isDigit = false) ∧
          (∀ x, post.head? = some x → x.isDigit = false) :=
  ⟨by decide, rfl,
    getLatestWin64Release_version_is_whole_dotted_quad
      (sampleFeed "v0120.0.6099.55 of 1.2.3.4".toList "https://example.com/new".toList)
      (sampleEntry "v0120.0.6099.55 of 1.2.3.4".toList "https://example.com/new".toList)
      "v0120.0.6099.55 of 1.2.3.4".toList "https://example.com/new".toList
      (by decide) (by decide) (by decide)
      ⟨"v".toList, "0120.0.6099.55".toList, " of 1.2.3.4".toList, by decide,
        "0120".toList, "0".toList, "6099".toList, "55".toList,
        ⟨by decide, by decide⟩, ⟨by decide, by decide⟩, ⟨by decide, by decide⟩,
        ⟨by decide, by decide⟩, by decide⟩⟩

end UpdateNotifier
